import Mathlib

/-!
# service_discovery: membership registry, deduplicating counter, replication with retry

A shallow embedding of `pkg/counter/counter.go`, `pkg/peerStore/peerStore.go` and
`pkg/service/service.go`.

Conventions of the embedding.

* Go `int64` (and `time.Duration`, which is an `int64` of nanoseconds) is an `Int`
  on which every arithmetic operation is followed by `wrap64`, the two's-complement
  reduction to `[-2^63, 2^63)`.
* `time.Time` is an `Int` of nanoseconds; `t.Before(u)` is `t < u`, `t.Add(d)` is `t + d`,
  `t.Sub(u)` is `t - u`.
* A Go `map[string]V` is an `AList` (association list with pairwise distinct keys).
  `for k, v := range m` visits the entries in the order of the list; as Go's order is
  unspecified, results are stated for every list order.
* `map[string]struct{}` is a `Finset String`.
* Maps are allocated, as `NewCounter`, `NewPeerStore` and `NewPeerService` make them;
  a nil map is not a state of the model.
* Mutexes make each locked region one atomic step, so a method is a function on the
  state it guards.
* The collaborators (`client.IClient`, `time.Now`) are oracles in `Env`; the calls made
  so far and the number of clock readings taken are kept in `World`.
-/

namespace ServiceDiscovery

/-! ## Machine arithmetic -/

/-- Two's-complement reduction of an integer to the `int64` range. -/
def wrap64 (x : Int) : Int := (x + 2 ^ 63) % 2 ^ 64 - 2 ^ 63

/-- Go `a + b` on `int64`. -/
def add64 (a b : Int) : Int := wrap64 (a + b)

/-- Go `a * b` on `int64`. -/
def mul64 (a b : Int) : Int := wrap64 (a * b)

/-- Go `a << s` on `int64` with a non-negative shift count. -/
def shl64 (a : Int) (s : Nat) : Int := wrap64 (a * 2 ^ s)

/-- States that `x` is representable as an `int64`. -/
def InInt64 (x : Int) : Prop := -(2 ^ 63) ≤ x ∧ x < 2 ^ 63

instance (x : Int) : Decidable (InInt64 x) := by
  unfold InInt64; infer_instance

/-! ## pkg/counter -/

/-- The `Counter` struct of `counter.go` (the mutex is not state). -/
structure Counter where
  value : Int
  seen : Finset String
deriving DecidableEq

namespace Counter

/-- `NewCounter`: zero total, empty seen-set. -/
def NewCounter : Counter := { value := 0, seen := ∅ }

/-- `Counter.Apply`: returns `false` and changes nothing when `eventID` is in `seen`;
otherwise adds `delta` to `value` (an `int64` addition), records `eventID` and
returns `true`. -/
def Apply (c : Counter) (eventID : String) (delta : Int) : Bool × Counter :=
  if eventID ∈ c.seen then
    (false, c)
  else
    (true, { value := add64 c.value delta, seen := insert eventID c.seen })

/-- `Counter.Get`. -/
def Get (c : Counter) : Int := c.value

/-- A sequence of `Apply` calls run one after the other; returns the list of results
(in call order) and the final counter. -/
def applyAll : Counter → List (String × Int) → List Bool × Counter
  | c, [] => ([], c)
  | c, (e, d) :: rest =>
    let r := c.Apply e d
    let rs := applyAll r.2 rest
    (r.1 :: rs.1, rs.2)

/-- Spec side of the at-most-once invariant: the sum of `delta_i` over the calls of a
sequence whose event id does not occur earlier in the sequence. -/
def firstOccurrenceSum (calls : List (String × Int)) : Int :=
  ∑ i ∈ Finset.range calls.length,
    match calls[i]? with
    | some (e, d) => if e ∈ (calls.take i).map Prod.fst then 0 else d
    | none => 0

end Counter

/-! ## Time -/

/-- `time.Millisecond`, in nanoseconds. -/
def Millisecond : Int := 1000000

/-- `time.Second`, in nanoseconds. -/
def Second : Int := 1000000000

/-- The largest `time.Duration`. -/
def maxDuration : Int := 2 ^ 63 - 1

/-- The smallest `time.Duration`. -/
def minDuration : Int := -(2 ^ 63)

/-- `t.Sub(u)` of package `time`: the duration `t - u`, replaced by the largest
(smallest) duration when it exceeds (falls below) what a `Duration` can hold. -/
def timeSub (t u : Int) : Int :=
  if t - u > maxDuration then maxDuration
  else if t - u < minDuration then minDuration
  else t - u

/-! ## Collaborators -/

/-- The arguments of one `IClient.SendIncrement(peer, selfId, eventId)` call. -/
structure SendCall where
  peer : String
  selfId : String
  eventId : String
deriving DecidableEq

/-- The environment of a node: the transport client and the clock.
`SendIncrement log call` is `true` when the call returns a nil error, given the calls
`log` made before it; `Now n` is what the `n`-th reading of `time.Now()` returns. -/
structure Env where
  SendIncrement : List SendCall → SendCall → Bool
  Now : Nat → Int

/-- What has happened so far: the `SendIncrement` calls made, oldest first, and the
number of `time.Now()` readings taken. -/
structure World where
  sent : List SendCall
  ticks : Nat
deriving DecidableEq

/-! ## pkg/peerStore -/

/-- The `PeerStore` struct of `peerStore.go` (the mutex is not state). -/
structure PeerStore where
  ID : String
  Peers : AList (fun _ : String => Int)
deriving DecidableEq

namespace PeerStore

/-- `NewPeerStore`. -/
def NewPeerStore (peerId : String) : PeerStore := { ID := peerId, Peers := ∅ }

/-- `PeerStore.GetPeers`: the keys of the peer map, in iteration order. -/
def GetPeers (ps : PeerStore) : List String := ps.Peers.keys

/-- `PeerStore.SelfID`. -/
def SelfID (ps : PeerStore) : String := ps.ID

/-- `PeerStore.AddPeer`: nothing happens (and the clock is not read) when `peerId` is
the store's own `ID`; otherwise `Peers[peerId] = time.Now()`. -/
def AddPeer (ps : PeerStore) (env : Env) (w : World) (peerId : String) :
    PeerStore × World :=
  if peerId = ps.ID then (ps, w)
  else
    ({ ps with Peers := ps.Peers.insert peerId (env.Now w.ticks) },
     { w with ticks := w.ticks + 1 })

/-- `PeerStore.RemovePeer`: `delete(ps.Peers, peer)`. -/
def RemovePeer (ps : PeerStore) (peer : String) : PeerStore :=
  { ps with Peers := ps.Peers.erase peer }

/-- `PeerStore.SnapshotOfPeers`, as the value of the map it returns: a new map into
which every entry of `Peers` is stored, in iteration order. -/
def SnapshotOfPeers (ps : PeerStore) : AList (fun _ : String => Int) :=
  ps.Peers.entries.foldl (fun copy ent => copy.insert ent.1 ent.2) ∅

end PeerStore

/-! ### The peer map as a reference

A Go map value is a reference to a map object. To tell a copy from an alias the map
objects are kept in a heap and `Peers` is a reference into it. -/

/-- The map objects allocated so far: references below `next` are allocated, `obj r`
is the content of the object `r` refers to. -/
structure MapHeap where
  next : Nat
  obj : Nat → AList (fun _ : String => Int)

namespace MapHeap

/-- `make(map[string]time.Time)`: allocate an empty map object, return its reference. -/
def make (h : MapHeap) : Nat × MapHeap :=
  (h.next, { next := h.next + 1, obj := Function.update h.obj h.next ∅ })

/-- `m[k] = v` through the reference `m`. -/
def set (h : MapHeap) (m : Nat) (k : String) (v : Int) : MapHeap :=
  { h with obj := Function.update h.obj m ((h.obj m).insert k v) }

/-- `delete(m, k)` through the reference `m`. -/
def delete (h : MapHeap) (m : Nat) (k : String) : MapHeap :=
  { h with obj := Function.update h.obj m ((h.obj m).erase k) }

end MapHeap

/-- The `PeerStore` struct with its `Peers` field as a reference. -/
structure PeerStoreRef where
  ID : String
  Peers : Nat
deriving DecidableEq

/-- What a caller can do to a map it holds: store a value under a key (insert or
change) or delete a key. -/
inductive MapUpdate where
  | store (k : String) (v : Int)
  | remove (k : String)
deriving DecidableEq

namespace PeerStoreRef

/-- `PeerStore.GetPeers` through the reference. -/
def GetPeers (h : MapHeap) (ps : PeerStoreRef) : List String := (h.obj ps.Peers).keys

/-- `PeerStore.SnapshotOfPeers` through references: `copy := make(...)`, then
`copy[k] = v` for every entry of `ps.Peers`; returns the reference `copy`. -/
def SnapshotOfPeers (h : MapHeap) (ps : PeerStoreRef) : Nat × MapHeap :=
  let r := h.make
  (r.1, (h.obj ps.Peers).entries.foldl (fun hh ent => hh.set r.1 ent.1 ent.2) r.2)

/-- Apply updates, one after the other, to the map object `m` refers to. -/
def updateAll (h : MapHeap) (m : Nat) : List MapUpdate → MapHeap
  | [] => h
  | .store k v :: rest => updateAll (h.set m k v) m rest
  | .remove k :: rest => updateAll (h.delete m k) m rest

end PeerStoreRef

/-! ## pkg/service -/

/-- The `PendingEvent` struct. `Attempt` is a Go `int` that `enqueue` creates as `0`
and `syncPending` only increments, hence a natural number. -/
structure PendingEvent where
  EventID : String
  Attempt : Nat
  NextRetry : Int
deriving DecidableEq

/-- The `PeerService` struct; `PStore` and `Counter` are the concrete registry and
counter that `main.go` plugs in, the client is in `Env`. -/
structure PeerService where
  SelfId : String
  PStore : PeerStore
  Counter : Counter
  Pending : AList (fun _ : String => List PendingEvent)
deriving DecidableEq

/-- A goroutine started by `Increment`: it will run `sendOrQueue peer eventID`. -/
structure Task where
  peer : String
  eventID : String
deriving DecidableEq

namespace PeerService

/-- `NewPeerService`: the pending map starts empty. -/
def NewPeerService (selfId : String) (p : PeerStore)
    (pCounter : ServiceDiscovery.Counter) : PeerService :=
  { SelfId := selfId, PStore := p, Counter := pCounter, Pending := ∅ }

/-- `PeerService.GetPeersList`. -/
def GetPeersList (s : PeerService) : List String := s.PStore.GetPeers

/-- `PeerService.GetCounterValue`. -/
def GetCounterValue (s : PeerService) : Int := s.Counter.Get

/-- `s.Pending[peer]`: the queue of `peer`, the nil slice when `peer` is not a key. -/
def queue (s : PeerService) (peer : String) : List PendingEvent :=
  (s.Pending.lookup peer).getD []

/-- `PeerService.enqueue`: append a new entry with `Attempt` 0 and `NextRetry` the
current clock reading to the queue of `peer`. -/
def enqueue (env : Env) (s : PeerService) (w : World) (peer eventID : String) :
    PeerService × World :=
  let event : PendingEvent :=
    { EventID := eventID, Attempt := 0, NextRetry := env.Now w.ticks }
  ({ s with Pending := s.Pending.insert peer (s.queue peer ++ [event]) },
   { w with ticks := w.ticks + 1 })

/-- `PeerService.sendOrQueue`: one `SendIncrement(peer, s.SelfId, eventID)`; when it
returns an error, `enqueue`. -/
def sendOrQueue (env : Env) (s : PeerService) (w : World) (peer eventID : String) :
    PeerService × World :=
  let call : SendCall := { peer := peer, selfId := s.SelfId, eventId := eventID }
  let w1 : World := { w with sent := w.sent ++ [call] }
  if env.SendIncrement w.sent call then (s, w1) else enqueue env s w1 peer eventID

/-- `PeerService.Increment`: apply the event with delta 1; when it was not applied
return the error, otherwise start one goroutine per peer of `GetPeersList()` and
return nil. The result is the error (if any), the new state and the goroutines started. -/
def Increment (s : PeerService) (eventID : String) :
    Option String × PeerService × List Task :=
  let r := s.Counter.Apply eventID 1
  if !r.1 then
    (some "counter not applied", { s with Counter := r.2 }, [])
  else
    (none, { s with Counter := r.2 },
      s.GetPeersList.map (fun p => { peer := p, eventID := eventID }))

/-- Run goroutines started by `Increment` one after the other in the given order. -/
def runTasks (env : Env) : List Task → PeerService × World → PeerService × World
  | [], sw => sw
  | t :: rest, sw => runTasks env rest (sendOrQueue env sw.1 sw.2 t.peer t.eventID)

/-- The backoff computed in `syncPending` from the incremented `Attempt`:
`time.Millisecond * 100 * (1 << (e.Attempt - 1))`, replaced by `time.Second * 10`
when greater than it. The constant `1` has type `time.Duration`, so the shift and the
product are `int64` operations. -/
def backoffDelay (attempt : Nat) : Int :=
  let delay := mul64 (Millisecond * 100) (shl64 1 (attempt - 1))
  if delay > Second * 10 then Second * 10 else delay

/-- The inner loop of `syncPending` over the queue of one peer: an entry that is not
due (`now.Before(e.NextRetry)`) is kept as is; a due entry is sent, dropped when the
send succeeds and kept with `Attempt + 1` and a new `NextRetry` when it fails.
Returns `remaining` and the world after the loop. -/
def retryEvents (env : Env) (selfId peer : String) (now : Int) :
    List PendingEvent → World → List PendingEvent × World
  | [], w => ([], w)
  | e :: rest, w =>
    if now < e.NextRetry then
      let r := retryEvents env selfId peer now rest w
      (e :: r.1, r.2)
    else
      let call : SendCall := { peer := peer, selfId := selfId, eventId := e.EventID }
      let w1 : World := { w with sent := w.sent ++ [call] }
      if env.SendIncrement w.sent call then
        retryEvents env selfId peer now rest w1
      else
        let attempt := e.Attempt + 1
        let e1 : PendingEvent :=
          { EventID := e.EventID, Attempt := attempt,
            NextRetry := env.Now w1.ticks + backoffDelay attempt }
        let r := retryEvents env selfId peer now rest { w1 with ticks := w1.ticks + 1 }
        (e1 :: r.1, r.2)

/-- One iteration of the outer loop of `syncPending`, for the entry `(peer, events)`:
run the inner loop, then delete the key when nothing remains and store `remaining`
otherwise. -/
def syncPeer (env : Env) (now : Int) (acc : PeerService × World)
    (ent : (_ : String) × List PendingEvent) : PeerService × World :=
  let r := retryEvents env acc.1.SelfId ent.1 now ent.2 acc.2
  if r.1.length = 0 then
    ({ acc.1 with Pending := acc.1.Pending.erase ent.1 }, r.2)
  else
    ({ acc.1 with Pending := acc.1.Pending.insert ent.1 r.1 }, r.2)

/-- `PeerService.syncPending`: read the clock once, then visit every entry of the
pending map. -/
def syncPending (env : Env) (s : PeerService) (w : World) : PeerService × World :=
  let now := env.Now w.ticks
  s.Pending.entries.foldl (syncPeer env now) (s, { w with ticks := w.ticks + 1 })

/-- Spec side of a retry pass: one `SendIncrement(peer, self, EventID)` for each entry
of a queue whose `NextRetry` is not after `now`, in queue order. -/
def dueCalls (selfId peer : String) (now : Int) (events : List PendingEvent) :
    List SendCall :=
  (events.filter (fun e => decide (¬ now < e.NextRetry))).map
    (fun e => { peer := peer, selfId := selfId, eventId := e.EventID })

end PeerService

/-- One atomic step of a node: a caller runs `Increment`, a goroutine runs
`sendOrQueue` (or its locked part `enqueue`), the retry loop runs `syncPending`. -/
inductive Action where
  | increment (eventID : String)
  | sendOrQueue (peer eventID : String)
  | enqueue (peer eventID : String)
  | syncPending
deriving DecidableEq

/-- Execute one step. The goroutines `Increment` starts are not run here: they are
`sendOrQueue` steps of their own, placed anywhere later in the schedule. -/
def step (env : Env) (sw : PeerService × World) : Action → PeerService × World
  | .increment eventID => ((sw.1.Increment eventID).2.1, sw.2)
  | .sendOrQueue peer eventID => PeerService.sendOrQueue env sw.1 sw.2 peer eventID
  | .enqueue peer eventID => PeerService.enqueue env sw.1 sw.2 peer eventID
  | .syncPending => PeerService.syncPending env sw.1 sw.2

/-- Execute a schedule of steps from left to right. -/
def run (env : Env) (sw : PeerService × World) (schedule : List Action) :
    PeerService × World :=
  schedule.foldl (step env) sw

/-- The event ids of the `Increment` calls of a schedule, in order. -/
def incrementIds : List Action → List String
  | [] => []
  | .increment e :: rest => e :: incrementIds rest
  | _ :: rest => incrementIds rest

/-! ### Membership operations of the service -/

/-- The arguments of one `IClient.JoinCluster(peerId, selfId)` call. -/
structure JoinCall where
  peerId : String
  selfId : String
deriving DecidableEq

namespace PeerService

/-- `PeerService.AddPeer`: pass-through to the registry. -/
def AddPeer (env : Env) (s : PeerService) (w : World) (peer : String) :
    PeerService × World :=
  ({ s with PStore := (s.PStore.AddPeer env w peer).1 }, (s.PStore.AddPeer env w peer).2)

/-- `PeerService.JoinPeer`. `join call` is what the client's `JoinCluster` returns for
`call`: `none` for a non-nil error, `some peers` otherwise. On an error nothing else
happens; otherwise `AddPeer(peer)` and `AddPeer(p)` for every returned `p`. Returns the
`JoinCluster` calls made, the new state and the new world. -/
def JoinPeer (env : Env) (join : JoinCall → Option (List String)) (s : PeerService)
    (w : World) (peer : String) : List JoinCall × PeerService × World :=
  let call : JoinCall := { peerId := peer, selfId := s.PStore.SelfID }
  match join call with
  | none => ([call], s, w)
  | some peers =>
    let r := peers.foldl (fun acc p => acc.1.AddPeer env acc.2 p)
      (s.PStore.AddPeer env w peer)
    ([call], { s with PStore := r.1 }, r.2)

/-- One iteration of the loop of `PeerService.StartCleanup`: read the clock, take a
snapshot of the registry and call `RemovePeer(peer)` for every entry of the snapshot
with `now.Sub(last) > 6*time.Second`. Returns the `RemovePeer` calls made, in order,
the new state and the new world. -/
def cleanupPass (env : Env) (s : PeerService) (w : World) :
    List String × PeerService × World :=
  let now := env.Now w.ticks
  let r := s.PStore.SnapshotOfPeers.entries.foldl
    (fun (acc : List String × PeerStore) ent =>
      if timeSub now ent.2 > 6 * Second then (acc.1 ++ [ent.1], acc.2.RemovePeer ent.1)
      else acc)
    ([], s.PStore)
  (r.1, { s with PStore := r.2 }, { w with ticks := w.ticks + 1 })

end PeerService

/-- A call that changes the registry: `AddPeer`, `RemovePeer`, or `JoinPeer` together
with the answer its `JoinCluster` call gets. -/
inductive RegistryAction where
  | addPeer (id : String)
  | removePeer (id : String)
  | joinPeer (address : String) (answer : Option (List String))
deriving DecidableEq

/-- Execute one registry call. -/
def registryStep (env : Env) (sw : PeerService × World) :
    RegistryAction → PeerService × World
  | .addPeer id => PeerService.AddPeer env sw.1 sw.2 id
  | .removePeer id => ({ sw.1 with PStore := sw.1.PStore.RemovePeer id }, sw.2)
  | .joinPeer address answer =>
    (PeerService.JoinPeer env (fun _ => answer) sw.1 sw.2 address).2

/-- Execute registry calls from left to right. -/
def registryRun (env : Env) (sw : PeerService × World) (calls : List RegistryAction) :
    PeerService × World :=
  calls.foldl (registryStep env) sw

/-! ## pkg/client -/

/-- The request `Client.SendIncrement` hands to `httpClient.Do`: a POST of the JSON
payload with `node_id` and `event_id` to the replicate route of the peer. -/
structure HttpRequest where
  method : String
  url : String
  nodeId : String
  eventId : String
deriving DecidableEq

/-- The part of an `http.Response` the claims speak of. -/
structure HttpResponse where
  StatusCode : Nat
deriving DecidableEq

/-- Package `net/http` as the client sees it. `newRequestOk url` tells whether
`http.NewRequest` accepts the URL; `Do req` is `none` when `httpClient.Do` returns a
non-nil error (no response within the timeout, connection failure) and the response
otherwise, whatever its status. -/
structure Http where
  newRequestOk : String → Bool
  Do : HttpRequest → Option HttpResponse

/-- Where `Client.SendIncrement` returns a non-nil error. -/
inductive ClientError where
  | formingRequest
  | sendingRequest
deriving DecidableEq

namespace Client

/-- `Client.SendIncrement`; `none` is the nil error. `json.Marshal` of a struct of two
strings does not fail, so its error branch is not taken; the response is closed and
not looked at. -/
def SendIncrement (http : Http) (peer selfId eventId : String) : Option ClientError :=
  let url := "http://" ++ peer ++ "/counter/replicate"
  if http.newRequestOk url then
    match http.Do { method := "POST", url := url, nodeId := selfId, eventId := eventId } with
    | none => some .sendingRequest
    | some _ => none
  else
    some .formingRequest

/-- The environment of a node whose transport is `Client` over `http`. -/
def env (http : Http) (now : Nat → Int) : Env :=
  { SendIncrement := fun _ call =>
      (SendIncrement http call.peer call.selfId call.eventId).isNone,
    Now := now }

end Client

/-! ## pkg/handler -/

/-- `NodeRequestBody`. -/
structure NodeRequestBody where
  NodeID : String
deriving DecidableEq

/-- `ReplicateBody`. -/
structure ReplicateBody where
  EventID : String
deriving DecidableEq

/-- What `json.NewDecoder(r.Body).Decode(&body)` leaves behind: the struct `body`
(its zero value where nothing was decoded into it) and whether the error is non-nil. -/
structure Decoded (α : Type) where
  body : α
  failed : Bool

/-- A call of a handler into `IPeerService`. -/
inductive ServiceCall where
  | AddPeer (peer : String)
  | GetPeersList
  | Increment (eventID : String)
  | GetCounterValue
deriving DecidableEq

/-- What a handler did: the status of the HTTP response, its calls into the service,
in order, the service and world afterwards, and the goroutines started. -/
structure Reply where
  status : Nat
  calls : List ServiceCall
  service : PeerService
  world : World
  started : List Task

/-- `http.StatusOK`. -/
def StatusOK : Nat := 200

/-- `http.StatusBadRequest`. -/
def StatusBadRequest : Nat := 400

namespace PeerHandler

/-- `PeerHandler.Join`. On a decode error `http.Error` writes the status 400, and the
handler goes on (there is no `return`): `AddPeer(body.NodeID)`, `GetPeersList()`, and
the encoded answer, which writes the status 200 only if none was written. -/
def Join (env : Env) (s : PeerService) (w : World) (req : Decoded NodeRequestBody) :
    Reply :=
  let status := if req.failed then StatusBadRequest else StatusOK
  let r := PeerService.AddPeer env s w req.body.NodeID
  { status := status, calls := [.AddPeer req.body.NodeID, .GetPeersList],
    service := r.1, world := r.2, started := [] }

/-- `PeerHandler.Heartbeat`. On a decode error `http.Error` writes the status 400, and
the handler goes on: `AddPeer(body.NodeID)`, then `WriteHeader(200)`, which has no
effect once a status was written. -/
def Heartbeat (env : Env) (s : PeerService) (w : World) (req : Decoded NodeRequestBody) :
    Reply :=
  let status := if req.failed then StatusBadRequest else StatusOK
  let r := PeerService.AddPeer env s w req.body.NodeID
  { status := status, calls := [.AddPeer req.body.NodeID],
    service := r.1, world := r.2, started := [] }

/-- `PeerHandler.Replicate`. The decode error is discarded; `Increment(body.EventID)`,
whose error is discarded too, then `WriteHeader(200)`. -/
def Replicate (s : PeerService) (w : World) (req : Decoded ReplicateBody) : Reply :=
  let r := s.Increment req.body.EventID
  { status := StatusOK, calls := [.Increment req.body.EventID],
    service := r.2.1, world := w, started := r.2.2 }

end PeerHandler

/-! ## Concrete inputs

Small states and environments at which the theorems below are instantiated. -/

/-- A transport on which every `SendIncrement` fails, with a clock that advances by
10 s at each reading. -/
def failingEnv : Env :=
  { SendIncrement := fun _ _ => false, Now := fun n => n * 10000000000 }

/-- A transport on which every `SendIncrement` succeeds, with the same clock. -/
def deliveringEnv : Env :=
  { SendIncrement := fun _ _ => true, Now := fun n => n * 10000000000 }

/-- The world before anything happened. -/
def World.start : World := { sent := [], ticks := 0 }

/-- A registry of node `n1` that knows the peers `n2` and `n3`. -/
def demoStore : PeerStore :=
  { ID := "n1", Peers := (AList.singleton "n2" (0 : Int)).insert "n3" 0 }

/-- A new service of node `n1` over `demoStore`. -/
def demoService : PeerService :=
  PeerService.NewPeerService "n1" demoStore Counter.NewCounter

/-- A pending entry for event `e1`, due from time 0 on. -/
def demoDue : PendingEvent := { EventID := "e1", Attempt := 0, NextRetry := 0 }

/-- A pending entry for event `e2`, not due before time 50 s. -/
def demoLater : PendingEvent := { EventID := "e2", Attempt := 0, NextRetry := 50000000000 }

/-- A service of node `n1` whose pending queue for `n2` is `demoDue`, `demoLater`. -/
def demoPending : PeerService :=
  { SelfId := "n1", PStore := demoStore, Counter := Counter.NewCounter,
    Pending := AList.singleton "n2" [demoDue, demoLater] }

/-- A schedule with three increments of distinct ids, a delivery and a retry pass. -/
def demoSchedule : List Action :=
  [.increment "e1", .sendOrQueue "n2" "e1", .increment "e2", .syncPending, .increment "e3"]

/-- A service of node `n1` whose registry last heard of `n2` at time 0 and of `n3` at
time 10 s. -/
def demoAging : PeerService :=
  PeerService.NewPeerService "n1"
    { ID := "n1", Peers := (AList.singleton "n2" (0 : Int)).insert "n3" 10000000000 }
    Counter.NewCounter

/-- A world in which one clock reading was taken: the next reading of `failingEnv`
is 10 s. -/
def World.afterOneReading : World := { sent := [], ticks := 1 }

/-- A heap with one map object, holding the peers of `demoStore`. -/
def demoHeap : MapHeap := { next := 1, obj := fun _ => demoStore.Peers }

/-- The store of node `n1` whose `Peers` refers to the map object of `demoHeap`. -/
def demoStoreRef : PeerStoreRef := { ID := "n1", Peers := 0 }

/-- A peer that answers every request with the status 500. -/
def failingPeerHttp : Http :=
  { newRequestOk := fun _ => true, Do := fun _ => some { StatusCode := 500 } }

/-- A request body that could not be decoded: the struct keeps its zero value. -/
def undecodedNode : Decoded NodeRequestBody := { body := { NodeID := "" }, failed := true }

/-- A replicate body that could not be decoded: the struct keeps its zero value. -/
def undecodedReplicate : Decoded ReplicateBody :=
  { body := { EventID := "" }, failed := true }

/-! # Theorems -/

/-! ## Machine arithmetic -/

theorem wrap64_eq_self {x : Int} (h : InInt64 x) : wrap64 x = x := by
  unfold InInt64 at h
  unfold wrap64
  omega

theorem wrap64_add_left (a b : Int) : wrap64 (wrap64 a + b) = wrap64 (a + b) := by
  unfold wrap64
  omega

theorem add64_eq_add {a b : Int} (h : InInt64 (a + b)) : add64 a b = a + b :=
  wrap64_eq_self h

/-! ## Counter -/

namespace Counter

theorem apply_of_not_seen (c : Counter) (e : String) (d : Int) (h : e ∉ c.seen) :
    c.Apply e d = (true, { value := add64 c.value d, seen := insert e c.seen }) := by
  simp [Apply, h]

theorem apply_of_seen (c : Counter) (e : String) (d : Int) (h : e ∈ c.seen) :
    c.Apply e d = (false, c) := by
  simp [Apply, h]

theorem applyAll_append (c : Counter) (xs ys : List (String × Int)) :
    applyAll c (xs ++ ys) =
      ((applyAll c xs).1 ++ (applyAll (applyAll c xs).2 ys).1,
        (applyAll (applyAll c xs).2 ys).2) := by
  induction xs generalizing c with
  | nil => simp [applyAll]
  | cons x xs ih =>
    obtain ⟨e, d⟩ := x
    simp [applyAll, ih]

theorem applyAll_length (c : Counter) (xs : List (String × Int)) :
    (applyAll c xs).1.length = xs.length := by
  induction xs generalizing c with
  | nil => simp [applyAll]
  | cons x xs ih =>
    obtain ⟨e, d⟩ := x
    simp [applyAll, ih]

/-- C1. `Counter.Apply` is idempotent per event id: on a counter that has not seen
`e`, the first `Apply(e, d)` returns true and `Get()` becomes `Get()` before plus `d`
(Go's `int64` sum, which is the integer sum whenever that is an `int64`); a second
`Apply(e, d)` returns false and leaves `Get()` unchanged. -/
theorem apply_twice (c : Counter) (e : String) (d : Int) (h : e ∉ c.seen) :
    (c.Apply e d).1 = true ∧
    (c.Apply e d).2.Get = add64 c.Get d ∧
    (InInt64 (c.Get + d) → (c.Apply e d).2.Get = c.Get + d) ∧
    ((c.Apply e d).2.Apply e d).1 = false ∧
    ((c.Apply e d).2.Apply e d).2.Get = (c.Apply e d).2.Get := by
  rw [apply_of_not_seen c e d h]
  have h2 : e ∈ (insert e c.seen) := Finset.mem_insert_self e c.seen
  refine ⟨rfl, rfl, fun hr => add64_eq_add hr, ?_, ?_⟩
  · rw [apply_of_seen _ e d h2]
  · rw [apply_of_seen _ e d h2]

theorem apply_twice_witness :
    "e1" ∉ NewCounter.seen ∧ (NewCounter.Apply "e1" 5).2.Get = 5 ∧
      (((NewCounter.Apply "e1" 5).2.Apply "e1" 5).1 = false ∧
        ((NewCounter.Apply "e1" 5).2.Apply "e1" 5).2.Get = 5) :=
  ⟨by decide,
    (apply_twice NewCounter "e1" 5 (by decide)).2.2.1 (by decide),
    (apply_twice NewCounter "e1" 5 (by decide)).2.2.2.1,
    (apply_twice NewCounter "e1" 5 (by decide)).2.2.2.2.trans
      ((apply_twice NewCounter "e1" 5 (by decide)).2.2.1 (by decide))⟩

theorem firstOccurrenceSum_snoc (calls : List (String × Int)) (e : String) (d : Int) :
    firstOccurrenceSum (calls ++ [(e, d)]) =
      firstOccurrenceSum calls + (if e ∈ calls.map Prod.fst then 0 else d) := by
  unfold firstOccurrenceSum
  rw [List.length_append, List.length_singleton, Finset.sum_range_succ]
  congr 1
  · apply Finset.sum_congr rfl
    intro i hi
    have hi2 : i < calls.length := Finset.mem_range.mp hi
    rw [List.getElem?_append_left hi2, List.take_append_of_le_length (le_of_lt hi2)]
  · rw [List.take_left]
    simp

theorem applyAll_snoc_state (calls : List (String × Int)) :
    (applyAll NewCounter calls).2.seen = (calls.map Prod.fst).toFinset ∧
    (applyAll NewCounter calls).2.value = wrap64 (firstOccurrenceSum calls) := by
  induction calls using List.reverseRecOn with
  | nil => simp [applyAll, NewCounter, firstOccurrenceSum, wrap64]
  | append_singleton calls x ih =>
    obtain ⟨e, d⟩ := x
    obtain ⟨hs, hv⟩ := ih
    rw [applyAll_append, firstOccurrenceSum_snoc]
    by_cases hm : e ∈ calls.map Prod.fst
    · have hm2 : e ∈ (applyAll NewCounter calls).2.seen := by
        rw [hs]; exact List.mem_toFinset.mpr hm
      simp only [applyAll, apply_of_seen _ e d hm2, if_pos hm, hs, hv]
      constructor
      · ext a
        simp only [List.mem_toFinset, List.map_append, List.mem_append, List.map_cons,
          List.map_nil, List.mem_singleton]
        constructor
        · intro h; exact Or.inl h
        · rintro (h | h)
          · exact h
          · rw [h]; exact hm
      · simp
    · have hm2 : e ∉ (applyAll NewCounter calls).2.seen := by
        rw [hs]; exact fun h => hm (List.mem_toFinset.mp h)
      simp only [applyAll, apply_of_not_seen _ e d hm2, if_neg hm, hs, hv]
      constructor
      · ext a
        simp only [List.mem_toFinset, List.map_append, List.mem_append, List.map_cons,
          List.map_nil, List.mem_singleton, Finset.mem_insert]
        tauto
      · exact wrap64_add_left _ _

theorem applyAll_results (calls : List (String × Int)) :
    ∀ (i : Nat) (h : i < calls.length),
      (applyAll NewCounter calls).1[i]? =
        some (decide ((calls[i]).1 ∉ (calls.take i).map Prod.fst)) := by
  induction calls using List.reverseRecOn with
  | nil => intro i h; simp at h
  | append_singleton calls x ih =>
    obtain ⟨e, d⟩ := x
    intro i h
    rw [applyAll_append]
    have hlen := applyAll_length NewCounter calls
    rw [List.length_append, List.length_singleton] at h
    by_cases hi : i < calls.length
    · rw [List.getElem?_append_left (by rw [hlen]; exact hi), ih i hi,
        List.take_append_of_le_length (le_of_lt hi)]
      simp only [List.getElem_append_left hi]
    · have hi2 : i = calls.length := by omega
      subst hi2
      rw [List.getElem?_append_right (by rw [hlen]), hlen, List.take_left]
      have hs := (applyAll_snoc_state calls).1
      by_cases hm : e ∈ calls.map Prod.fst
      · have hm2 : e ∈ (applyAll NewCounter calls).2.seen := by
          rw [hs]; exact List.mem_toFinset.mpr hm
        simp [applyAll, apply_of_seen _ e d hm2, hm]
      · have hm2 : e ∉ (applyAll NewCounter calls).2.seen := by
          rw [hs]; exact fun h => hm (List.mem_toFinset.mp h)
        simp [applyAll, apply_of_not_seen _ e d hm2, hm]

/-- C3. Each event identifier changes the total at most once: in any sequence of
`Apply(id_i, delta_i)` calls on a new counter the `i`-th call returns true exactly
when `id_i` does not occur earlier in the sequence, and the final total is the
(`int64`) sum of `delta_i` over those first occurrences, which is their integer sum
whenever that is an `int64`. -/
theorem apply_sequence (calls : List (String × Int)) :
    (∀ (i : Nat) (h : i < calls.length),
      (applyAll NewCounter calls).1[i]? =
        some (decide ((calls[i]).1 ∉ (calls.take i).map Prod.fst))) ∧
    (applyAll NewCounter calls).2.Get = wrap64 (firstOccurrenceSum calls) ∧
    (InInt64 (firstOccurrenceSum calls) →
      (applyAll NewCounter calls).2.Get = firstOccurrenceSum calls) := by
  refine ⟨applyAll_results calls, (applyAll_snoc_state calls).2, fun h => ?_⟩
  exact ((applyAll_snoc_state calls).2).trans (wrap64_eq_self h)

theorem apply_sequence_witness :
    (applyAll NewCounter [("a", 1), ("b", 2), ("a", 4)]).1[2]? = some false ∧
      (applyAll NewCounter [("a", 1), ("b", 2), ("a", 4)]).2.Get = 3 :=
  ⟨((apply_sequence [("a", 1), ("b", 2), ("a", 4)]).1 2 (by decide)).trans (by decide),
    ((apply_sequence [("a", 1), ("b", 2), ("a", 4)]).2.2 (by decide)).trans (by decide)⟩

end Counter

namespace PeerService

/-! ## Frame lemmas -/

theorem enqueue_frame (env : Env) (s : PeerService) (w : World) (peer eventID : String) :
    (enqueue env s w peer eventID).1.SelfId = s.SelfId ∧
    (enqueue env s w peer eventID).1.PStore = s.PStore ∧
    (enqueue env s w peer eventID).1.Counter = s.Counter ∧
    (enqueue env s w peer eventID).2.sent = w.sent :=
  ⟨rfl, rfl, rfl, rfl⟩

theorem sendOrQueue_of_ok (env : Env) (s : PeerService) (w : World) (peer eventID : String)
    (h : env.SendIncrement w.sent
      { peer := peer, selfId := s.SelfId, eventId := eventID } = true) :
    sendOrQueue env s w peer eventID =
      (s, { w with sent :=
              w.sent ++ [{ peer := peer, selfId := s.SelfId, eventId := eventID }] }) := by
  simp [sendOrQueue, h]

theorem sendOrQueue_of_fail (env : Env) (s : PeerService) (w : World)
    (peer eventID : String)
    (h : env.SendIncrement w.sent
      { peer := peer, selfId := s.SelfId, eventId := eventID } = false) :
    sendOrQueue env s w peer eventID =
      enqueue env s
        { w with sent :=
            w.sent ++ [{ peer := peer, selfId := s.SelfId, eventId := eventID }] }
        peer eventID := by
  simp [sendOrQueue, h]

theorem syncPeer_of_nil (env : Env) (now : Int) (acc : PeerService × World)
    (ent : (_ : String) × List PendingEvent)
    (h : (retryEvents env acc.1.SelfId ent.1 now ent.2 acc.2).1 = []) :
    syncPeer env now acc ent =
      ({ acc.1 with Pending := acc.1.Pending.erase ent.1 },
        (retryEvents env acc.1.SelfId ent.1 now ent.2 acc.2).2) := by
  simp [syncPeer, h]

theorem syncPeer_of_ne_nil (env : Env) (now : Int) (acc : PeerService × World)
    (ent : (_ : String) × List PendingEvent)
    (h : (retryEvents env acc.1.SelfId ent.1 now ent.2 acc.2).1 ≠ []) :
    syncPeer env now acc ent =
      ({ acc.1 with
          Pending := acc.1.Pending.insert ent.1
            (retryEvents env acc.1.SelfId ent.1 now ent.2 acc.2).1 },
        (retryEvents env acc.1.SelfId ent.1 now ent.2 acc.2).2) := by
  simp [syncPeer, h]

theorem sendOrQueue_frame (env : Env) (s : PeerService) (w : World) (peer eventID : String) :
    (sendOrQueue env s w peer eventID).1.SelfId = s.SelfId ∧
    (sendOrQueue env s w peer eventID).1.PStore = s.PStore ∧
    (sendOrQueue env s w peer eventID).1.Counter = s.Counter ∧
    (sendOrQueue env s w peer eventID).2.sent =
      w.sent ++ [{ peer := peer, selfId := s.SelfId, eventId := eventID }] := by
  by_cases h : env.SendIncrement w.sent
      { peer := peer, selfId := s.SelfId, eventId := eventID } = true
  · rw [sendOrQueue_of_ok env s w peer eventID h]
    exact ⟨rfl, rfl, rfl, rfl⟩
  · rw [sendOrQueue_of_fail env s w peer eventID (by simpa using h)]
    exact ⟨rfl, rfl, rfl, rfl⟩

theorem syncPeer_frame (env : Env) (now : Int) (acc : PeerService × World)
    (ent : (_ : String) × List PendingEvent) :
    (syncPeer env now acc ent).1.SelfId = acc.1.SelfId ∧
    (syncPeer env now acc ent).1.PStore = acc.1.PStore ∧
    (syncPeer env now acc ent).1.Counter = acc.1.Counter := by
  by_cases h : (retryEvents env acc.1.SelfId ent.1 now ent.2 acc.2).1 = []
  · rw [syncPeer_of_nil env now acc ent h]
    exact ⟨rfl, rfl, rfl⟩
  · rw [syncPeer_of_ne_nil env now acc ent h]
    exact ⟨rfl, rfl, rfl⟩

theorem foldl_syncPeer_frame (env : Env) (now : Int)
    (l : List ((_ : String) × List PendingEvent)) (acc : PeerService × World) :
    (l.foldl (syncPeer env now) acc).1.SelfId = acc.1.SelfId ∧
    (l.foldl (syncPeer env now) acc).1.PStore = acc.1.PStore ∧
    (l.foldl (syncPeer env now) acc).1.Counter = acc.1.Counter := by
  induction l generalizing acc with
  | nil => exact ⟨rfl, rfl, rfl⟩
  | cons ent l ih =>
    rw [List.foldl_cons]
    obtain ⟨h1, h2, h3⟩ := ih (syncPeer env now acc ent)
    obtain ⟨g1, g2, g3⟩ := syncPeer_frame env now acc ent
    exact ⟨h1.trans g1, h2.trans g2, h3.trans g3⟩

theorem syncPending_frame (env : Env) (s : PeerService) (w : World) :
    (syncPending env s w).1.SelfId = s.SelfId ∧
    (syncPending env s w).1.PStore = s.PStore ∧
    (syncPending env s w).1.Counter = s.Counter :=
  foldl_syncPeer_frame env _ _ _

/-! ## Increment -/

theorem increment_of_seen (s : PeerService) (e : String) (h : e ∈ s.Counter.seen) :
    s.Increment e = (some "counter not applied", s, []) := by
  simp [Increment, Counter.apply_of_seen _ e 1 h]

theorem increment_of_not_seen (s : PeerService) (e : String) (h : e ∉ s.Counter.seen) :
    s.Increment e =
      (none,
        { s with Counter := { value := add64 s.Counter.value 1,
                              seen := insert e s.Counter.seen } },
        s.GetPeersList.map (fun p => { peer := p, eventID := e })) := by
  simp [Increment, Counter.apply_of_not_seen _ e 1 h]

/-- C4. `Increment(e)` returns the error "counter not applied" if and only if `e`
was already applied to the counter; in that case the whole service state (counter
total, pending queue) is unchanged and no goroutine, hence no `SendIncrement`, is
started. Otherwise it returns nil and the total grows by 1 (Go's `int64` sum, the
integer sum whenever that is an `int64`). -/
theorem increment_error_iff (s : PeerService) (e : String) :
    ((s.Increment e).1 = some "counter not applied" ↔ e ∈ s.Counter.seen) ∧
    ((s.Increment e).1 = none ↔ e ∉ s.Counter.seen) ∧
    (e ∈ s.Counter.seen →
      (s.Increment e).2.1.GetCounterValue = s.GetCounterValue ∧
      (s.Increment e).2.2 = [] ∧
      (s.Increment e).2.1.Pending = s.Pending ∧
      (s.Increment e).2.1 = s) ∧
    (e ∉ s.Counter.seen →
      (s.Increment e).2.1.GetCounterValue = add64 s.GetCounterValue 1 ∧
      (InInt64 (s.GetCounterValue + 1) →
        (s.Increment e).2.1.GetCounterValue = s.GetCounterValue + 1)) := by
  by_cases h : e ∈ s.Counter.seen
  · rw [increment_of_seen s e h]
    simp [h]
  · rw [increment_of_not_seen s e h]
    refine ⟨by simp [h], by simp [h], fun h2 => absurd h2 h, fun _ => ⟨rfl, fun hr => ?_⟩⟩
    exact add64_eq_add hr

theorem increment_error_iff_witness :
    "e1" ∉ demoService.Counter.seen ∧ (demoService.Increment "e1").1 = none ∧
      (demoService.Increment "e1").2.1.GetCounterValue = 1 :=
  ⟨by decide, (increment_error_iff demoService "e1").2.1.mpr (by decide),
    (((increment_error_iff demoService "e1").2.2.2 (by decide)).2 (by decide)).trans
      (by decide)⟩

end PeerService

/-! ## Schedules -/

theorem wrap64_inInt64 (x : Int) : InInt64 (wrap64 x) := by
  unfold InInt64 wrap64
  omega

theorem step_increment_counter (env : Env) (sw : PeerService × World) (e : String) :
    (step env sw (.increment e)).1.Counter = (sw.1.Counter.Apply e 1).2 := by
  simp only [step, PeerService.Increment]
  split <;> rfl

theorem incrementIds_cons_of_counter_eq (env : Env) (sw : PeerService × World)
    (a : Action) (rest : List Action)
    (h : (step env sw a).1.Counter ≠ sw.1.Counter) :
    ∃ e, a = .increment e ∧ incrementIds (a :: rest) = e :: incrementIds rest := by
  cases a with
  | increment e => exact ⟨e, rfl, rfl⟩
  | sendOrQueue p e => exact absurd (PeerService.sendOrQueue_frame env sw.1 sw.2 p e).2.2.1 h
  | enqueue p e => exact absurd rfl h
  | syncPending => exact absurd (PeerService.syncPending_frame env sw.1 sw.2).2.2 h

theorem incrementIds_cons_of_ne (a : Action) (rest : List Action)
    (h : ∀ e, a ≠ .increment e) : incrementIds (a :: rest) = incrementIds rest := by
  cases a with
  | increment e => exact absurd rfl (h e)
  | sendOrQueue p e => rfl
  | enqueue p e => rfl
  | syncPending => rfl

theorem run_cons (env : Env) (sw : PeerService × World) (a : Action)
    (rest : List Action) : run env sw (a :: rest) = run env (step env sw a) rest :=
  rfl

theorem run_counter (env : Env) (schedule : List Action) :
    ∀ sw : PeerService × World,
      InInt64 sw.1.Counter.value →
      (incrementIds schedule).Nodup →
      (∀ e ∈ incrementIds schedule, e ∉ sw.1.Counter.seen) →
      (run env sw schedule).1.Counter.value =
        wrap64 (sw.1.Counter.value + ((incrementIds schedule).length : Int)) := by
  induction schedule with
  | nil =>
    intro sw hr _ _
    simp only [run, incrementIds, List.foldl_nil, List.length_nil, Nat.cast_zero, add_zero]
    exact (wrap64_eq_self hr).symm
  | cons a rest ih =>
    intro sw hr hnd hns
    rw [run_cons]
    by_cases hc : (step env sw a).1.Counter = sw.1.Counter
    · by_cases ha : ∃ e, a = .increment e
      · obtain ⟨e, rfl⟩ := ha
        have he : e ∉ sw.1.Counter.seen := hns e (by simp [incrementIds])
        rw [step_increment_counter, Counter.apply_of_not_seen _ e 1 he] at hc
        have hmem : e ∈ sw.1.Counter.seen := by
          rw [← hc]; exact Finset.mem_insert_self _ _
        exact absurd hmem he
      · have hids := incrementIds_cons_of_ne a rest (fun e h => ha ⟨e, h⟩)
        rw [hids] at hnd hns ⊢
        rw [ih _ (by rw [hc]; exact hr) hnd (by rw [hc]; exact hns), hc]
    · obtain ⟨e, rfl, hids⟩ := incrementIds_cons_of_counter_eq env sw a rest hc
      rw [hids] at hnd hns ⊢
      rw [List.nodup_cons] at hnd
      have he : e ∉ sw.1.Counter.seen := hns e (List.mem_cons_self _ _)
      have hc2 : (step env sw (.increment e)).1.Counter =
          { value := add64 sw.1.Counter.value 1, seen := insert e sw.1.Counter.seen } := by
        rw [step_increment_counter, Counter.apply_of_not_seen _ e 1 he]
      rw [ih _ (by rw [hc2]; exact wrap64_inInt64 _) hnd.2 ?_, hc2]
      · simp only [List.length_cons, Nat.cast_add, Nat.cast_one, add64]
        unfold wrap64
        omega
      · intro e2 he2
        rw [hc2]
        simp only [Finset.mem_insert, not_or]
        exact ⟨fun h => hnd.1 (h ▸ he2), hns e2 (List.mem_cons_of_mem _ he2)⟩

/-- C2. No lost updates and no double counts: in every schedule of atomic steps on
a service with a new counter (in any order, interleaved with any deliveries and retry
passes) in which `Increment` is called with `N` pairwise distinct event ids,
`GetCounterValue()` ends as the `int64` value of `N`, which is `N` itself for every
`N` below `2^63`. -/
theorem increments_total (env : Env) (selfId : String) (store : PeerStore) (w : World)
    (schedule : List Action) (h : (incrementIds schedule).Nodup) :
    (run env (PeerService.NewPeerService selfId store Counter.NewCounter, w)
        schedule).1.GetCounterValue = wrap64 ((incrementIds schedule).length : Int) ∧
    ((incrementIds schedule).length < 2 ^ 63 →
      (run env (PeerService.NewPeerService selfId store Counter.NewCounter, w)
        schedule).1.GetCounterValue = ((incrementIds schedule).length : Int)) := by
  have key := run_counter env schedule
    (PeerService.NewPeerService selfId store Counter.NewCounter, w)
    (by show InInt64 0; decide) h
    (by intro e _; simp [PeerService.NewPeerService, Counter.NewCounter])
  have k2 : (run env (PeerService.NewPeerService selfId store Counter.NewCounter, w)
        schedule).1.GetCounterValue = wrap64 ((incrementIds schedule).length : Int) := by
    rw [PeerService.GetCounterValue, Counter.Get, key]
    simp only [PeerService.NewPeerService, Counter.NewCounter, zero_add]
  refine ⟨k2, fun hlt => ?_⟩
  rw [k2]
  apply wrap64_eq_self
  unfold InInt64
  have : ((incrementIds schedule).length : Int) < 2 ^ 63 := by exact_mod_cast hlt
  omega

theorem increments_total_witness :
    (incrementIds demoSchedule).Nodup ∧
      (run failingEnv (PeerService.NewPeerService "n1" demoStore Counter.NewCounter, World.start)
        demoSchedule).1.GetCounterValue = 3 :=
  ⟨by decide,
    ((increments_total failingEnv "n1" demoStore World.start demoSchedule (by decide)).2
      (by decide)).trans (by decide)⟩

namespace PeerService

/-! ## The inner retry loop -/

theorem retryEvents_cons_not_due (env : Env) (selfId peer : String) (now : Int)
    (e : PendingEvent) (rest : List PendingEvent) (w : World) (h : now < e.NextRetry) :
    retryEvents env selfId peer now (e :: rest) w =
      (e :: (retryEvents env selfId peer now rest w).1,
        (retryEvents env selfId peer now rest w).2) := by
  simp [retryEvents, h]

theorem retryEvents_cons_ok (env : Env) (selfId peer : String) (now : Int)
    (e : PendingEvent) (rest : List PendingEvent) (w : World) (h : ¬ now < e.NextRetry)
    (hs : env.SendIncrement w.sent
      { peer := peer, selfId := selfId, eventId := e.EventID } = true) :
    retryEvents env selfId peer now (e :: rest) w =
      retryEvents env selfId peer now rest
        { w with sent :=
            w.sent ++ [{ peer := peer, selfId := selfId, eventId := e.EventID }] } := by
  simp [retryEvents, h, hs]

theorem retryEvents_cons_fail (env : Env) (selfId peer : String) (now : Int)
    (e : PendingEvent) (rest : List PendingEvent) (w : World) (h : ¬ now < e.NextRetry)
    (hs : env.SendIncrement w.sent
      { peer := peer, selfId := selfId, eventId := e.EventID } = false) :
    retryEvents env selfId peer now (e :: rest) w =
      ({ EventID := e.EventID, Attempt := e.Attempt + 1,
         NextRetry := env.Now w.ticks + backoffDelay (e.Attempt + 1) } ::
          (retryEvents env selfId peer now rest
            { sent := w.sent ++ [{ peer := peer, selfId := selfId, eventId := e.EventID }],
              ticks := w.ticks + 1 }).1,
        (retryEvents env selfId peer now rest
            { sent := w.sent ++ [{ peer := peer, selfId := selfId, eventId := e.EventID }],
              ticks := w.ticks + 1 }).2) := by
  simp [retryEvents, h, hs]

theorem retryEvents_append (env : Env) (selfId peer : String) (now : Int)
    (xs ys : List PendingEvent) (w : World) :
    retryEvents env selfId peer now (xs ++ ys) w =
      ((retryEvents env selfId peer now xs w).1 ++
          (retryEvents env selfId peer now ys (retryEvents env selfId peer now xs w).2).1,
        (retryEvents env selfId peer now ys (retryEvents env selfId peer now xs w).2).2) := by
  induction xs generalizing w with
  | nil => simp [retryEvents]
  | cons e xs ih =>
    rw [List.cons_append]
    by_cases h : now < e.NextRetry
    · rw [retryEvents_cons_not_due _ _ _ _ _ _ _ h, retryEvents_cons_not_due _ _ _ _ _ _ _ h,
        ih]
      rfl
    · by_cases hs : env.SendIncrement w.sent
          { peer := peer, selfId := selfId, eventId := e.EventID } = true
      · rw [retryEvents_cons_ok _ _ _ _ _ _ _ h hs, retryEvents_cons_ok _ _ _ _ _ _ _ h hs, ih]
      · have hs2 : env.SendIncrement w.sent
            { peer := peer, selfId := selfId, eventId := e.EventID } = false := by
          simpa using hs
        rw [retryEvents_cons_fail _ _ _ _ _ _ _ h hs2,
          retryEvents_cons_fail _ _ _ _ _ _ _ h hs2, ih]
        rfl

theorem dueCalls_append (selfId peer : String) (now : Int) (xs ys : List PendingEvent) :
    dueCalls selfId peer now (xs ++ ys) =
      dueCalls selfId peer now xs ++ dueCalls selfId peer now ys := by
  simp [dueCalls]

theorem dueCalls_cons_due (selfId peer : String) (now : Int) (e : PendingEvent)
    (rest : List PendingEvent) (h : ¬ now < e.NextRetry) :
    dueCalls selfId peer now (e :: rest) =
      { peer := peer, selfId := selfId, eventId := e.EventID } ::
        dueCalls selfId peer now rest := by
  have h2 : e.NextRetry ≤ now := not_lt.mp h
  simp [dueCalls, h2]

theorem dueCalls_cons_not_due (selfId peer : String) (now : Int) (e : PendingEvent)
    (rest : List PendingEvent) (h : now < e.NextRetry) :
    dueCalls selfId peer now (e :: rest) = dueCalls selfId peer now rest := by
  simp [dueCalls, h]

theorem retryEvents_sent (env : Env) (selfId peer : String) (now : Int)
    (evs : List PendingEvent) (w : World) :
    (retryEvents env selfId peer now evs w).2.sent =
      w.sent ++ dueCalls selfId peer now evs := by
  induction evs generalizing w with
  | nil => simp [retryEvents, dueCalls]
  | cons e xs ih =>
    by_cases h : now < e.NextRetry
    · rw [retryEvents_cons_not_due _ _ _ _ _ _ _ h, dueCalls_cons_not_due _ _ _ _ _ h]
      exact ih w
    · rw [dueCalls_cons_due _ _ _ _ _ h]
      by_cases hs : env.SendIncrement w.sent
          { peer := peer, selfId := selfId, eventId := e.EventID } = true
      · rw [retryEvents_cons_ok _ _ _ _ _ _ _ h hs, ih]
        simp
      · have hs2 : env.SendIncrement w.sent
            { peer := peer, selfId := selfId, eventId := e.EventID } = false := by
          simpa using hs
        rw [retryEvents_cons_fail _ _ _ _ _ _ _ h hs2]
        simp only
        rw [ih]
        simp

/-! ## The outer loop -/

theorem syncPeer_sent (env : Env) (now : Int) (acc : PeerService × World)
    (ent : (_ : String) × List PendingEvent) :
    (syncPeer env now acc ent).2 =
      (retryEvents env acc.1.SelfId ent.1 now ent.2 acc.2).2 := by
  by_cases h : (retryEvents env acc.1.SelfId ent.1 now ent.2 acc.2).1 = []
  · rw [syncPeer_of_nil env now acc ent h]
  · rw [syncPeer_of_ne_nil env now acc ent h]

theorem syncPeer_lookup_self (env : Env) (now : Int) (acc : PeerService × World)
    (ent : (_ : String) × List PendingEvent) :
    (syncPeer env now acc ent).1.Pending.lookup ent.1 =
      if (retryEvents env acc.1.SelfId ent.1 now ent.2 acc.2).1 = [] then none
      else some (retryEvents env acc.1.SelfId ent.1 now ent.2 acc.2).1 := by
  by_cases h : (retryEvents env acc.1.SelfId ent.1 now ent.2 acc.2).1 = []
  · rw [syncPeer_of_nil env now acc ent h, if_pos h]
    exact AList.lookup_erase _ _
  · rw [syncPeer_of_ne_nil env now acc ent h, if_neg h]
    exact AList.lookup_insert _

theorem syncPeer_lookup_ne (env : Env) (now : Int) (acc : PeerService × World)
    (ent : (_ : String) × List PendingEvent) (k : String) (hk : k ≠ ent.1) :
    (syncPeer env now acc ent).1.Pending.lookup k = acc.1.Pending.lookup k := by
  by_cases h : (retryEvents env acc.1.SelfId ent.1 now ent.2 acc.2).1 = []
  · rw [syncPeer_of_nil env now acc ent h]
    exact AList.lookup_erase_ne hk
  · rw [syncPeer_of_ne_nil env now acc ent h]
    exact AList.lookup_insert_ne hk

theorem foldl_syncPeer_lookup_of_not_mem (env : Env) (now : Int)
    (l : List ((_ : String) × List PendingEvent)) (acc : PeerService × World) (k : String)
    (hk : k ∉ l.keys) :
    (l.foldl (syncPeer env now) acc).1.Pending.lookup k = acc.1.Pending.lookup k := by
  induction l generalizing acc with
  | nil => rfl
  | cons ent l ih =>
    rw [List.keys_cons, List.mem_cons, not_or] at hk
    rw [List.foldl_cons, ih _ hk.2, syncPeer_lookup_ne _ _ _ _ _ hk.1]

theorem foldl_syncPeer_sent (env : Env) (now : Int)
    (l : List ((_ : String) × List PendingEvent)) (acc : PeerService × World) :
    (l.foldl (syncPeer env now) acc).2.sent =
      acc.2.sent ++ l.flatMap (fun ent => dueCalls acc.1.SelfId ent.1 now ent.2) := by
  induction l generalizing acc with
  | nil => simp
  | cons ent l ih =>
    rw [List.foldl_cons, ih, syncPeer_sent, retryEvents_sent, (syncPeer_frame env now acc ent).1]
    simp

theorem queue_eq_of_lookup (s : PeerService) (p : String) (rem : List PendingEvent)
    (h : s.Pending.lookup p = if rem = [] then none else some rem) : s.queue p = rem := by
  unfold queue
  rw [h]
  by_cases hr : rem = []
  · simp [hr]
  · simp [hr]

theorem syncPending_sent (env : Env) (s : PeerService) (w : World) :
    (syncPending env s w).2.sent =
      w.sent ++ s.Pending.entries.flatMap
        (fun ent => dueCalls s.SelfId ent.1 (env.Now w.ticks) ent.2) := by
  unfold syncPending
  rw [foldl_syncPeer_sent]

theorem syncPending_lookup_none (env : Env) (s : PeerService) (w : World) (p : String)
    (h : s.Pending.lookup p = none) : (syncPending env s w).1.Pending.lookup p = none := by
  unfold syncPending
  rw [foldl_syncPeer_lookup_of_not_mem]
  · exact h
  · exact AList.lookup_eq_none.mp h

theorem syncPending_lookup_some (env : Env) (s : PeerService) (w : World) (p : String)
    (evs : List PendingEvent) (h : s.Pending.lookup p = some evs) :
    ∃ (wA : World) (earlier later : List SendCall),
      wA.sent = w.sent ++ earlier ∧
      (syncPending env s w).2.sent =
        (retryEvents env s.SelfId p (env.Now w.ticks) evs wA).2.sent ++ later ∧
      (syncPending env s w).1.Pending.lookup p =
        if (retryEvents env s.SelfId p (env.Now w.ticks) evs wA).1 = [] then none
        else some (retryEvents env s.SelfId p (env.Now w.ticks) evs wA).1 := by
  have hmem : (⟨p, evs⟩ : (_ : String) × List PendingEvent) ∈ s.Pending.entries :=
    AList.mem_lookup_iff.mp (by rw [h]; exact rfl)
  obtain ⟨l1, l2, hl⟩ := List.append_of_mem hmem
  have hnd : (l1 ++ (⟨p, evs⟩ : (_ : String) × List PendingEvent) :: l2).NodupKeys := by
    rw [← hl]; exact s.Pending.nodupKeys
  have hnd2 : ((⟨p, evs⟩ : (_ : String) × List PendingEvent) :: l2).NodupKeys :=
    hnd.sublist (List.sublist_append_right l1 _)
  have hp : p ∉ l2.keys := List.not_mem_keys_of_nodupKeys_cons hnd2
  have hself := (foldl_syncPeer_frame env (env.Now w.ticks) l1
    (s, { w with ticks := w.ticks + 1 })).1
  refine ⟨(l1.foldl (syncPeer env (env.Now w.ticks)) (s, { w with ticks := w.ticks + 1 })).2,
    l1.flatMap (fun ent => dueCalls s.SelfId ent.1 (env.Now w.ticks) ent.2),
    l2.flatMap (fun ent => dueCalls s.SelfId ent.1 (env.Now w.ticks) ent.2), ?_, ?_, ?_⟩
  · rw [foldl_syncPeer_sent]
  · unfold syncPending
    rw [hl, List.foldl_append, List.foldl_cons, foldl_syncPeer_sent, syncPeer_sent,
      (syncPeer_frame _ _ _ _).1, hself]
  · unfold syncPending
    rw [hl, List.foldl_append, List.foldl_cons, foldl_syncPeer_lookup_of_not_mem _ _ _ _ _ hp]
    have := syncPeer_lookup_self env (env.Now w.ticks)
      (l1.foldl (syncPeer env (env.Now w.ticks)) (s, { w with ticks := w.ticks + 1 }))
      ⟨p, evs⟩
    rw [hself] at this
    exact this

theorem syncPending_lookup_ne_nil (env : Env) (s : PeerService) (w : World) (p : String) :
    (syncPending env s w).1.Pending.lookup p ≠ some [] := by
  cases h : s.Pending.lookup p with
  | none => rw [syncPending_lookup_none env s w p h]; exact fun h2 => nomatch h2
  | some evs =>
    obtain ⟨wA, _, _, _, _, hl⟩ := syncPending_lookup_some env s w p evs h
    rw [hl]
    split
    · exact fun h2 => nomatch h2
    · rename_i hne
      intro h2
      exact hne (Option.some.inj h2)

/-- C7. One retry pass handles every due entry exactly once: the `SendIncrement`
calls of `syncPending` are, queue by queue, one `(peer, self, EventID)` call for each
entry whose `NextRetry` is not after `now`, and nothing else. For a due entry `e`
standing between `pre` and `post` in the queue of `p`, with `log` the calls made when
the loop reaches `e`: if the send of `e` at `log` succeeds, the queue of `p` afterwards
is what the loop keeps of `pre` followed by what it keeps of `post` (`e` is gone); if
it fails, `e` stays at its place with the same `EventID` and `Attempt + 1`. -/
theorem syncPending_due_entries (env : Env) (s : PeerService) (w : World) :
    (syncPending env s w).2.sent =
      w.sent ++ s.Pending.entries.flatMap
        (fun ent => dueCalls s.SelfId ent.1 (env.Now w.ticks) ent.2) ∧
    ∀ (p : String) (pre post : List PendingEvent) (e : PendingEvent),
      s.Pending.lookup p = some (pre ++ e :: post) → ¬ env.Now w.ticks < e.NextRetry →
      ∃ (wA : World) (earlier later : List SendCall),
        wA.sent = w.sent ++ earlier ∧
        (syncPending env s w).2.sent =
          (retryEvents env s.SelfId p (env.Now w.ticks) pre wA).2.sent ++
            [{ peer := p, selfId := s.SelfId, eventId := e.EventID }] ++ later ∧
        (env.SendIncrement (retryEvents env s.SelfId p (env.Now w.ticks) pre wA).2.sent
            { peer := p, selfId := s.SelfId, eventId := e.EventID } = true →
          (syncPending env s w).1.queue p =
            (retryEvents env s.SelfId p (env.Now w.ticks) pre wA).1 ++
              (retryEvents env s.SelfId p (env.Now w.ticks) post
                { sent := (retryEvents env s.SelfId p (env.Now w.ticks) pre wA).2.sent ++
                    [{ peer := p, selfId := s.SelfId, eventId := e.EventID }],
                  ticks := (retryEvents env s.SelfId p (env.Now w.ticks) pre wA).2.ticks }).1) ∧
        (env.SendIncrement (retryEvents env s.SelfId p (env.Now w.ticks) pre wA).2.sent
            { peer := p, selfId := s.SelfId, eventId := e.EventID } = false →
          (syncPending env s w).1.Pending.lookup p = some
            ((retryEvents env s.SelfId p (env.Now w.ticks) pre wA).1 ++
              { EventID := e.EventID, Attempt := e.Attempt + 1,
                NextRetry :=
                  env.Now (retryEvents env s.SelfId p (env.Now w.ticks) pre wA).2.ticks +
                    backoffDelay (e.Attempt + 1) } ::
              (retryEvents env s.SelfId p (env.Now w.ticks) post
                { sent := (retryEvents env s.SelfId p (env.Now w.ticks) pre wA).2.sent ++
                    [{ peer := p, selfId := s.SelfId, eventId := e.EventID }],
                  ticks :=
                    (retryEvents env s.SelfId p (env.Now w.ticks) pre wA).2.ticks + 1 }).1)) := by
  refine ⟨syncPending_sent env s w, ?_⟩
  intro p pre post e hl hdue
  obtain ⟨wA, earlier, later, h1, h2, h3⟩ := syncPending_lookup_some env s w p _ hl
  refine ⟨wA, earlier,
    dueCalls s.SelfId p (env.Now w.ticks) post ++ later, h1, ?_, ?_, ?_⟩
  · rw [h2, retryEvents_sent, retryEvents_sent, dueCalls_append,
      dueCalls_cons_due _ _ _ _ _ hdue]
    simp
  · intro hs
    rw [queue_eq_of_lookup _ _ _ h3, retryEvents_append,
      retryEvents_cons_ok _ _ _ _ _ _ _ hdue hs]
  · intro hs
    rw [h3, retryEvents_append, retryEvents_cons_fail _ _ _ _ _ _ _ hdue hs]
    simp

theorem syncPending_due_entries_witness :
    (demoPending.Pending.lookup "n2" = some ([] ++ demoDue :: [demoLater]) ∧
      ¬ failingEnv.Now World.start.ticks < demoDue.NextRetry) ∧
    ∃ (t : Int) (rest : List PendingEvent),
      (syncPending failingEnv demoPending World.start).1.Pending.lookup "n2" =
        some ({ EventID := "e1", Attempt := 1, NextRetry := t } :: rest) :=
  ⟨⟨by decide, by decide⟩,
    match (syncPending_due_entries failingEnv demoPending World.start).2 "n2" []
        [demoLater] demoDue (by decide) (by decide) with
    | ⟨_, _, _, _, _, _, hfail⟩ => ⟨_, _, hfail rfl⟩⟩

/-- C9. Entries that are not yet due are carried forward untouched: an entry `e` of
the queue of `p` with `now` strictly before `e.NextRetry` is, after `syncPending`,
still in the queue of `p`, identical, between what the loop keeps of the entries
before it and of those after it; the calls of the pass for that queue are those of
its other entries, so none is made for `e`, and the entries after `e` are processed
from the very world the entries before it left. -/
theorem syncPending_not_due_entries (env : Env) (s : PeerService) (w : World) :
    (syncPending env s w).2.sent =
      w.sent ++ s.Pending.entries.flatMap
        (fun ent => dueCalls s.SelfId ent.1 (env.Now w.ticks) ent.2) ∧
    ∀ (p : String) (pre post : List PendingEvent) (e : PendingEvent),
      s.Pending.lookup p = some (pre ++ e :: post) → env.Now w.ticks < e.NextRetry →
      dueCalls s.SelfId p (env.Now w.ticks) (pre ++ e :: post) =
        dueCalls s.SelfId p (env.Now w.ticks) (pre ++ post) ∧
      ∃ (wA : World) (earlier later : List SendCall),
        wA.sent = w.sent ++ earlier ∧
        (syncPending env s w).2.sent =
          wA.sent ++ dueCalls s.SelfId p (env.Now w.ticks) (pre ++ post) ++ later ∧
        (syncPending env s w).1.Pending.lookup p = some
          ((retryEvents env s.SelfId p (env.Now w.ticks) pre wA).1 ++
            e :: (retryEvents env s.SelfId p (env.Now w.ticks) post
              (retryEvents env s.SelfId p (env.Now w.ticks) pre wA).2).1) := by
  refine ⟨syncPending_sent env s w, ?_⟩
  intro p pre post e hl hnd
  have hd : dueCalls s.SelfId p (env.Now w.ticks) (pre ++ e :: post) =
      dueCalls s.SelfId p (env.Now w.ticks) (pre ++ post) := by
    rw [dueCalls_append, dueCalls_append, dueCalls_cons_not_due _ _ _ _ _ hnd]
  refine ⟨hd, ?_⟩
  obtain ⟨wA, earlier, later, h1, h2, h3⟩ := syncPending_lookup_some env s w p _ hl
  refine ⟨wA, earlier, later, h1, ?_, ?_⟩
  · rw [h2, retryEvents_sent, hd]
  · rw [h3, retryEvents_append, retryEvents_cons_not_due _ _ _ _ _ _ _ hnd]
    simp

theorem syncPending_not_due_entries_witness :
    (demoPending.Pending.lookup "n2" = some ([demoDue] ++ demoLater :: []) ∧
      failingEnv.Now World.start.ticks < demoLater.NextRetry) ∧
    ∃ (kept : List PendingEvent),
      (syncPending failingEnv demoPending World.start).1.Pending.lookup "n2" =
        some (kept ++ demoLater :: []) :=
  ⟨⟨by decide, by decide⟩,
    match ((syncPending_not_due_entries failingEnv demoPending World.start).2 "n2"
        [demoDue] [] demoLater (by decide) (by decide)).2 with
    | ⟨_, _, _, _, _, hkeep⟩ => ⟨_, hkeep⟩⟩

/-! ## sendOrQueue and the fan-out of Increment -/

theorem enqueue_lookup_self (env : Env) (s : PeerService) (w : World) (p e : String) :
    (enqueue env s w p e).1.Pending.lookup p =
      some (s.queue p ++ [{ EventID := e, Attempt := 0, NextRetry := env.Now w.ticks }]) :=
  AList.lookup_insert _

theorem enqueue_lookup_ne (env : Env) (s : PeerService) (w : World) (p e q : String)
    (h : q ≠ p) : (enqueue env s w p e).1.Pending.lookup q = s.Pending.lookup q :=
  AList.lookup_insert_ne h

/-- C6. A failed delivery becomes exactly one retry obligation: `sendOrQueue(p, e)`
makes exactly one `SendIncrement(p, self, e)`; when it fails, with `t` the reading of
`time.Now()` in `enqueue`, the queue of `p` becomes the old queue followed by the one
entry `(e, Attempt 0, NextRetry t)` and every other peer's queue is unchanged; when it
succeeds the pending map is unchanged. -/
theorem sendOrQueue_failure_enqueues (env : Env) (s : PeerService) (w : World)
    (p e : String) (t : Int) (ht : env.Now w.ticks = t) :
    (sendOrQueue env s w p e).2.sent =
      w.sent ++ [{ peer := p, selfId := s.SelfId, eventId := e }] ∧
    (env.SendIncrement w.sent { peer := p, selfId := s.SelfId, eventId := e } = false →
      (sendOrQueue env s w p e).1.Pending.lookup p =
        some (s.queue p ++ [{ EventID := e, Attempt := 0, NextRetry := t }]) ∧
      ∀ q : String, q ≠ p →
        (sendOrQueue env s w p e).1.Pending.lookup q = s.Pending.lookup q) ∧
    (env.SendIncrement w.sent { peer := p, selfId := s.SelfId, eventId := e } = true →
      (sendOrQueue env s w p e).1.Pending = s.Pending) := by
  refine ⟨(sendOrQueue_frame env s w p e).2.2.2, fun hf => ?_, fun hs => ?_⟩
  · rw [sendOrQueue_of_fail env s w p e hf]
    refine ⟨?_, fun q hq => enqueue_lookup_ne env s _ p e q hq⟩
    rw [enqueue_lookup_self, ← ht]
  · rw [sendOrQueue_of_ok env s w p e hs]

theorem sendOrQueue_failure_enqueues_witness :
    failingEnv.Now World.start.ticks = 0 ∧
      (sendOrQueue failingEnv demoService World.start "n2" "e1").1.Pending.lookup "n2" =
        some (demoService.queue "n2" ++
          [{ EventID := "e1", Attempt := 0, NextRetry := 0 }]) :=
  ⟨by decide,
    ((sendOrQueue_failure_enqueues failingEnv demoService World.start "n2" "e1" 0
      (by decide)).2.1 (by decide)).1⟩

theorem runTasks_sent (env : Env) (ts : List Task) :
    ∀ (s : PeerService) (w : World),
      (runTasks env ts (s, w)).2.sent =
        w.sent ++ ts.map (fun t => { peer := t.peer, selfId := s.SelfId, eventId := t.eventID }) := by
  induction ts with
  | nil => intro s w; simp [runTasks]
  | cons t rest ih =>
    intro s w
    have hf := sendOrQueue_frame env s w t.peer t.eventID
    rw [runTasks]
    rw [← Prod.mk.eta (p := sendOrQueue env s w t.peer t.eventID), ih, hf.1, hf.2.2.2]
    simp

/-- C5. Replication fan-out targets exactly the peers known at dispatch time: for
`e` not yet applied, `Increment(e)` returns nil, leaves the pending map as it is and
starts one `sendOrQueue(p, e)` goroutine per key `p` of the registry. In whatever
order the goroutines run, the `SendIncrement` calls they make are `(peer, self, e)`
calls, exactly one for each peer of the registry and none for any other address. With
an empty registry nothing is started, and so nothing is sent or enqueued. -/
theorem increment_fan_out (s : PeerService) (e : String) (h : e ∉ s.Counter.seen) :
    (s.Increment e).1 = none ∧
    (s.Increment e).2.2 = s.PStore.Peers.keys.map (fun p => { peer := p, eventID := e }) ∧
    (s.Increment e).2.1.Pending = s.Pending ∧
    (∀ (env : Env) (w : World) (order : List Task), order.Perm (s.Increment e).2.2 →
      (runTasks env order ((s.Increment e).2.1, w)).2.sent =
        w.sent ++ order.map (fun t => { peer := t.peer, selfId := s.SelfId, eventId := e }) ∧
      (∀ a : String,
        (order.map (fun t =>
            ({ peer := t.peer, selfId := s.SelfId, eventId := e } : SendCall))).count
          { peer := a, selfId := s.SelfId, eventId := e } =
            if a ∈ s.PStore.Peers then 1 else 0) ∧
      (∀ c ∈ order.map (fun t =>
            ({ peer := t.peer, selfId := s.SelfId, eventId := e } : SendCall)),
        c.peer ∈ s.PStore.Peers ∧ c.selfId = s.SelfId ∧ c.eventId = e)) ∧
    (s.PStore.Peers.keys = [] →
      (s.Increment e).2.2 = [] ∧
      ∀ (env : Env) (w : World),
        runTasks env (s.Increment e).2.2 ((s.Increment e).2.1, w) =
          ((s.Increment e).2.1, w)) := by
  rw [increment_of_not_seen s e h]
  refine ⟨rfl, rfl, rfl, ?_, ?_⟩
  · intro env w order hperm
    simp only [GetPeersList, PeerStore.GetPeers] at hperm
    have hev : ∀ t ∈ order, t.eventID = e := by
      intro t ht
      have := hperm.mem_iff.mp ht
      simp only [List.mem_map] at this
      obtain ⟨p, _, rfl⟩ := this
      rfl
    have hpeer : ∀ t ∈ order, t.peer ∈ s.PStore.Peers := by
      intro t ht
      have := hperm.mem_iff.mp ht
      simp only [List.mem_map] at this
      obtain ⟨p, hp, rfl⟩ := this
      exact AList.mem_keys.mpr hp
    have hmap : order.map (fun t =>
          ({ peer := t.peer, selfId := s.SelfId, eventId := e } : SendCall)) =
        order.map (fun t =>
          ({ peer := t.peer, selfId := s.SelfId, eventId := t.eventID } : SendCall)) := by
      apply List.map_congr_left
      intro t ht
      rw [hev t ht]
    refine ⟨?_, ?_, ?_⟩
    · rw [runTasks_sent, hmap]
    · intro a
      have hp2 : (order.map (fun t =>
            ({ peer := t.peer, selfId := s.SelfId, eventId := e } : SendCall))).Perm
          (s.PStore.Peers.keys.map (fun p =>
            ({ peer := p, selfId := s.SelfId, eventId := e } : SendCall))) := by
        have := hperm.map (fun t =>
            ({ peer := t.peer, selfId := s.SelfId, eventId := e } : SendCall))
        simpa [List.map_map, Function.comp] using this
      rw [hp2.count_eq]
      have hinj : Function.Injective (fun p : String =>
            ({ peer := p, selfId := s.SelfId, eventId := e } : SendCall)) := by
        intro a b hab
        exact congrArg SendCall.peer hab
      rw [List.count_map_of_injective _ _ hinj, List.count_eq_of_nodup s.PStore.Peers.keys_nodup]
      simp only [AList.mem_keys]
    · intro c hc
      simp only [List.mem_map] at hc
      obtain ⟨t, ht, rfl⟩ := hc
      exact ⟨hpeer t ht, rfl, rfl⟩
  · intro hk
    refine ⟨by simp [GetPeersList, PeerStore.GetPeers, hk], fun env w => ?_⟩
    simp [GetPeersList, PeerStore.GetPeers, hk, runTasks]

theorem increment_fan_out_witness :
    "e1" ∉ demoService.Counter.seen ∧
      (runTasks failingEnv (demoService.Increment "e1").2.2
          ((demoService.Increment "e1").2.1, World.start)).2.sent =
        World.start.sent ++ (demoService.Increment "e1").2.2.map
          (fun t => { peer := t.peer, selfId := demoService.SelfId, eventId := "e1" }) :=
  ⟨by decide,
    ((increment_fan_out demoService "e1" (by decide)).2.2.2.1 failingEnv World.start
      (demoService.Increment "e1").2.2 (List.Perm.refl _)).1⟩

/-! ## Garbage collection of empty buckets -/

theorem mem_pending_iff_queue_ne_nil (t : PeerService) (p : String)
    (h : t.Pending.lookup p ≠ some []) : p ∈ t.Pending ↔ t.queue p ≠ [] := by
  rw [← AList.lookup_isSome]
  unfold queue
  cases hl : t.Pending.lookup p with
  | none => simp
  | some l =>
    rw [hl] at h
    simp only [Option.isSome_some, Option.getD_some, true_iff]
    exact fun h2 => h (by rw [h2])

theorem enqueue_lookup_ne_nil (env : Env) (s : PeerService) (w : World) (p e q : String)
    (h : s.Pending.lookup q ≠ some []) :
    (enqueue env s w p e).1.Pending.lookup q ≠ some [] := by
  by_cases hq : q = p
  · subst hq
    rw [enqueue_lookup_self]
    intro h2
    have := Option.some.inj h2
    simp at this
  · rw [enqueue_lookup_ne env s w p e q hq]
    exact h

end PeerService

theorem step_lookup_ne_nil (env : Env) (sw : PeerService × World) (a : Action)
    (h : ∀ q, sw.1.Pending.lookup q ≠ some []) :
    ∀ q, (step env sw a).1.Pending.lookup q ≠ some [] := by
  intro q
  cases a with
  | increment e =>
    have : (step env sw (.increment e)).1.Pending = sw.1.Pending := by
      simp only [step, PeerService.Increment]
      split <;> rfl
    rw [this]
    exact h q
  | sendOrQueue p e =>
    simp only [step]
    by_cases hs : env.SendIncrement sw.2.sent
        { peer := p, selfId := sw.1.SelfId, eventId := e } = true
    · rw [PeerService.sendOrQueue_of_ok env sw.1 sw.2 p e hs]
      exact h q
    · rw [PeerService.sendOrQueue_of_fail env sw.1 sw.2 p e (by simpa using hs)]
      exact PeerService.enqueue_lookup_ne_nil env sw.1 _ p e q (h q)
  | enqueue p e => exact PeerService.enqueue_lookup_ne_nil env sw.1 _ p e q (h q)
  | syncPending => exact PeerService.syncPending_lookup_ne_nil env sw.1 sw.2 q

theorem run_lookup_ne_nil (env : Env) (schedule : List Action) :
    ∀ sw : PeerService × World, (∀ q, sw.1.Pending.lookup q ≠ some []) →
      ∀ q, (run env sw schedule).1.Pending.lookup q ≠ some [] := by
  induction schedule with
  | nil => intro sw h; exact h
  | cons a rest ih =>
    intro sw h
    rw [run_cons]
    exact ih _ (step_lookup_ne_nil env sw a h)

namespace PeerService

/-- C10. Empty buckets are garbage-collected: after `syncPending` (from any state)
no key of `Pending` maps to an empty list, a peer is a key if and only if its queue is
non-empty, that is if and only if the loop kept at least one of its entries, and no
key is new; hence in every state reached from `NewPeerService` by any schedule of
`Increment`, `sendOrQueue`, `enqueue` and `syncPending` steps no key maps to an empty
list. -/
theorem pending_buckets_nonempty :
    (∀ (env : Env) (s : PeerService) (w : World) (p : String),
      (syncPending env s w).1.Pending.lookup p ≠ some [] ∧
      (p ∈ (syncPending env s w).1.Pending ↔ (syncPending env s w).1.queue p ≠ []) ∧
      (p ∈ (syncPending env s w).1.Pending → p ∈ s.Pending)) ∧
    (∀ (env : Env) (s : PeerService) (w : World) (p : String) (evs : List PendingEvent),
      s.Pending.lookup p = some evs →
      ∃ wA : World,
        (syncPending env s w).1.queue p =
          (retryEvents env s.SelfId p (env.Now w.ticks) evs wA).1 ∧
        (p ∈ (syncPending env s w).1.Pending ↔
          (retryEvents env s.SelfId p (env.Now w.ticks) evs wA).1 ≠ [])) ∧
    (∀ (env : Env) (selfId : String) (store : PeerStore) (counter : ServiceDiscovery.Counter)
        (w : World) (schedule : List Action) (p : String),
      (run env (NewPeerService selfId store counter, w) schedule).1.Pending.lookup p
        ≠ some []) := by
  refine ⟨fun env s w p => ⟨syncPending_lookup_ne_nil env s w p,
      mem_pending_iff_queue_ne_nil _ p (syncPending_lookup_ne_nil env s w p), ?_⟩, ?_, ?_⟩
  · intro hp
    by_contra hn
    have h1 := syncPending_lookup_none env s w p (AList.lookup_eq_none.mpr hn)
    exact (AList.lookup_eq_none.mp h1) hp
  · intro env s w p evs hl
    obtain ⟨wA, _, _, _, _, h3⟩ := syncPending_lookup_some env s w p evs hl
    refine ⟨wA, queue_eq_of_lookup _ _ _ h3, ?_⟩
    rw [mem_pending_iff_queue_ne_nil _ p (syncPending_lookup_ne_nil env s w p),
      queue_eq_of_lookup _ _ _ h3]
  · intro env selfId store counter w schedule p
    apply run_lookup_ne_nil
    intro q
    simp [NewPeerService]

theorem pending_buckets_nonempty_witness :
    demoPending.Pending.lookup "n2" = some [demoDue, demoLater] ∧
    (∃ wA : World,
      (syncPending deliveringEnv demoPending World.start).1.queue "n2" =
        (retryEvents deliveringEnv demoPending.SelfId "n2"
          (deliveringEnv.Now World.start.ticks) [demoDue, demoLater] wA).1) ∧
    (run failingEnv (NewPeerService "n1" demoStore Counter.NewCounter, World.start)
        demoSchedule).1.Pending.lookup "n2" ≠ some [] :=
  ⟨by decide,
    match pending_buckets_nonempty.2.1 deliveringEnv demoPending World.start "n2"
        [demoDue, demoLater] (by decide) with
    | ⟨wA, hq, _⟩ => ⟨wA, hq⟩,
    pending_buckets_nonempty.2.2 failingEnv "n1" demoStore Counter.NewCounter World.start
      demoSchedule "n2"⟩

/-! ## Backoff -/

theorem backoffDelay_eq_min (k : Nat) (h1 : 1 ≤ k) (h2 : k ≤ 37) :
    backoffDelay k = min (Millisecond * 100 * 2 ^ (k - 1)) (Second * 10) := by
  interval_cases k <;> decide

set_option maxRecDepth 100000

/-- C8 (the code departs from the claim). The delay computed for attempt 38 is the
wrapped `int64` product `100000000 * 2^37`, a negative duration that the 10 s cap does
not catch, where the claim gives `min(100ms * 2^37, 10s) = 10s`; from attempt 57 on the
product wraps to 0. The state is reached by a delivery that fails followed by 38
retry passes that fail: the entry then has `Attempt` 38 and a `NextRetry` that lies
before the time of the pass instead of 10 s after it. -/
theorem backoffDelay_overflows :
    backoffDelay 38 = -4702848726509551616 ∧
    min (Millisecond * 100 * 2 ^ (38 - 1)) (Second * 10) = 10000000000 ∧
    backoffDelay 57 = 0 ∧
    (run failingEnv (NewPeerService "n1" demoStore Counter.NewCounter, World.start)
        (.sendOrQueue "n2" "e1" :: List.replicate 38 .syncPending)).1.queue "n2" =
      [{ EventID := "e1", Attempt := 38,
         NextRetry := failingEnv.Now 76 + -4702848726509551616 }] := by
  decide

end PeerService

/-! ## Membership registry -/

namespace PeerStore

theorem addPeer_of_self (ps : PeerStore) (env : Env) (w : World) :
    ps.AddPeer env w ps.ID = (ps, w) := by
  simp [AddPeer]

theorem addPeer_of_ne (ps : PeerStore) (env : Env) (w : World) (id : String)
    (h : id ≠ ps.ID) :
    ps.AddPeer env w id =
      ({ ps with Peers := ps.Peers.insert id (env.Now w.ticks) },
       { w with ticks := w.ticks + 1 }) := by
  simp [AddPeer, h]

theorem addPeer_ID (ps : PeerStore) (env : Env) (w : World) (id : String) :
    (ps.AddPeer env w id).1.ID = ps.ID := by
  by_cases h : id = ps.ID
  · rw [h, addPeer_of_self]
  · rw [addPeer_of_ne ps env w id h]

theorem addPeer_sent (ps : PeerStore) (env : Env) (w : World) (id : String) :
    (ps.AddPeer env w id).2.sent = w.sent := by
  by_cases h : id = ps.ID
  · rw [h, addPeer_of_self]
  · rw [addPeer_of_ne ps env w id h]

theorem mem_addPeer (ps : PeerStore) (env : Env) (w : World) (id x : String) :
    x ∈ (ps.AddPeer env w id).1.Peers ↔ x ∈ ps.Peers ∨ (x = id ∧ id ≠ ps.ID) := by
  by_cases h : id = ps.ID
  · rw [h, addPeer_of_self]
    simp
  · rw [addPeer_of_ne ps env w id h]
    simp only [AList.mem_insert, ne_eq, h, not_false_eq_true, and_true]
    exact Or.comm

theorem foldl_insert_lookup (l : List ((_ : String) × Int)) (hl : l.NodupKeys)
    (acc : AList (fun _ : String => Int)) (k : String) :
    (l.foldl (fun copy ent => copy.insert ent.1 ent.2) acc).lookup k =
      match l.dlookup k with
      | some v => some v
      | none => acc.lookup k := by
  induction l generalizing acc with
  | nil => rfl
  | cons ent l ih =>
    obtain ⟨a, b⟩ := ent
    rw [List.foldl_cons, ih (List.nodupKeys_of_nodupKeys_cons hl)]
    have ha : a ∉ l.keys := List.not_mem_keys_of_nodupKeys_cons hl
    by_cases hk : k = a
    · subst hk
      rw [List.dlookup_cons_eq, List.dlookup_eq_none.mpr ha]
      exact AList.lookup_insert _
    · rw [List.dlookup_cons_ne _ _ hk]
      cases l.dlookup k with
      | some v => rfl
      | none => exact AList.lookup_insert_ne hk

theorem snapshotOfPeers_lookup (ps : PeerStore) (k : String) :
    ps.SnapshotOfPeers.lookup k = ps.Peers.lookup k := by
  unfold SnapshotOfPeers
  rw [foldl_insert_lookup _ ps.Peers.nodupKeys]
  have hdef : ps.Peers.lookup k = ps.Peers.entries.dlookup k := rfl
  rw [hdef]
  cases ps.Peers.entries.dlookup k with
  | some v => rfl
  | none => rfl

theorem mem_snapshotOfPeers (ps : PeerStore) (k : String) :
    k ∈ ps.SnapshotOfPeers ↔ k ∈ ps.Peers := by
  rw [← AList.lookup_isSome, ← AList.lookup_isSome, snapshotOfPeers_lookup]

/-- C13. Self-exclusion: `AddPeer(ps.ID)` leaves the store, hence the peer map with
its ids and timestamps and the output of `GetPeers()`, unchanged, and does not even
read the clock. -/
theorem addPeer_self_unchanged (ps : PeerStore) (env : Env) (w : World) :
    (ps.AddPeer env w ps.ID).1 = ps ∧
    (ps.AddPeer env w ps.ID).1.Peers = ps.Peers ∧
    (ps.AddPeer env w ps.ID).1.GetPeers = ps.GetPeers ∧
    (ps.AddPeer env w ps.ID).2 = w := by
  rw [addPeer_of_self]
  exact ⟨rfl, rfl, rfl, rfl⟩

/-- C14. `AddPeer` inserts or refreshes: for an id other than the store's own, after
`AddPeer(id)` with `t` the reading of `time.Now()`, `GetPeers()` lists `id` exactly
once, `SnapshotOfPeers()` maps `id` to `t` whether or not `id` was present before, and
the record of every other peer is unchanged. -/
theorem addPeer_inserts_or_refreshes (ps : PeerStore) (env : Env) (w : World)
    (id : String) (t : Int) (hid : id ≠ ps.ID) (ht : env.Now w.ticks = t) :
    (ps.AddPeer env w id).1.GetPeers.count id = 1 ∧
    (ps.AddPeer env w id).1.SnapshotOfPeers.lookup id = some t ∧
    (ps.AddPeer env w id).1.Peers.lookup id = some t ∧
    (∀ q : String, q ≠ id →
      (ps.AddPeer env w id).1.Peers.lookup q = ps.Peers.lookup q ∧
      (ps.AddPeer env w id).1.SnapshotOfPeers.lookup q = ps.SnapshotOfPeers.lookup q ∧
      (q ∈ (ps.AddPeer env w id).1.GetPeers ↔ q ∈ ps.GetPeers)) := by
  have hl : (ps.AddPeer env w id).1.Peers.lookup id = some t := by
    rw [addPeer_of_ne ps env w id hid, ← ht]
    exact AList.lookup_insert _
  have hne : ∀ q : String, q ≠ id →
      (ps.AddPeer env w id).1.Peers.lookup q = ps.Peers.lookup q := by
    intro q hq
    rw [addPeer_of_ne ps env w id hid]
    exact AList.lookup_insert_ne hq
  refine ⟨?_, ?_, hl, fun q hq => ⟨hne q hq, ?_, ?_⟩⟩
  · apply List.count_eq_one_of_mem (ps.AddPeer env w id).1.Peers.keys_nodup
    exact AList.mem_keys.mp (AList.lookup_isSome.mp (by rw [hl]; rfl))
  · rw [snapshotOfPeers_lookup, hl]
  · rw [snapshotOfPeers_lookup, snapshotOfPeers_lookup, hne q hq]
  · unfold GetPeers
    rw [← AList.mem_keys, ← AList.mem_keys, ← AList.lookup_isSome, ← AList.lookup_isSome,
      hne q hq]

theorem addPeer_inserts_or_refreshes_witness :
    (("n2" : String) ≠ demoStore.ID ∧ failingEnv.Now World.start.ticks = 0) ∧
      (demoStore.AddPeer failingEnv World.start "n2").1.GetPeers.count "n2" = 1 :=
  ⟨⟨by decide, by decide⟩,
    (addPeer_inserts_or_refreshes demoStore failingEnv World.start "n2" 0 (by decide)
      (by decide)).1⟩

theorem removePeer_of_not_mem (ps : PeerStore) (id : String) (h : id ∉ ps.Peers) :
    ps.RemovePeer id = ps := by
  unfold RemovePeer
  have : ps.Peers.erase id = ps.Peers := by
    apply AList.ext
    exact List.kerase_of_not_mem_keys h
  rw [this]

/-- C15. `RemovePeer` deletes only the named peer: after `RemovePeer(id)` the id is
not in `GetPeers()` and the record of every other peer is unchanged; when `id` was not
present the whole store is unchanged (the operation is total: no error, no panic). -/
theorem removePeer_only_named (ps : PeerStore) (id : String) :
    id ∉ (ps.RemovePeer id).GetPeers ∧
    (ps.RemovePeer id).ID = ps.ID ∧
    (∀ q : String, q ≠ id →
      (ps.RemovePeer id).Peers.lookup q = ps.Peers.lookup q ∧
      (q ∈ (ps.RemovePeer id).GetPeers ↔ q ∈ ps.GetPeers)) ∧
    (id ∉ ps.GetPeers → ps.RemovePeer id = ps) := by
  refine ⟨?_, rfl, fun q hq => ⟨AList.lookup_erase_ne hq, ?_⟩, fun h => ?_⟩
  · unfold GetPeers RemovePeer
    rw [← AList.mem_keys, AList.mem_erase]
    exact fun h => h.1 rfl
  · unfold GetPeers RemovePeer
    rw [← AList.mem_keys, ← AList.mem_keys, AList.mem_erase]
    exact ⟨fun h => h.2, fun h => ⟨hq, h⟩⟩
  · exact removePeer_of_not_mem ps id (fun hm => h (AList.mem_keys.mp hm))

theorem removePeer_only_named_witness :
    ("n4" ∉ demoStore.GetPeers ∧ ("n3" : String) ≠ "n2") ∧
      demoStore.RemovePeer "n4" = demoStore ∧
      (demoStore.RemovePeer "n2").Peers.lookup "n3" = demoStore.Peers.lookup "n3" :=
  ⟨⟨by decide, by decide⟩,
    (removePeer_only_named demoStore "n4").2.2.2 (by decide),
    ((removePeer_only_named demoStore "n2").2.2.1 "n3" (by decide)).1⟩

end PeerStore

/-! ## Monotonicity of the total -/

namespace Counter

/-- C19 as stated fails: on a new counter `Apply("e1", -1)` is accepted and takes the
total from 0 to -1; and on a counter whose total is the largest `int64`,
`Apply("e1", 1)` takes the total to the smallest `int64`. -/
theorem apply_not_monotone :
    (NewCounter.Apply "e1" (-1)).1 = true ∧
    NewCounter.Get = 0 ∧ (NewCounter.Apply "e1" (-1)).2.Get = -1 ∧
    ¬ (NewCounter.Get ≤ (NewCounter.Apply "e1" (-1)).2.Get) ∧
    ¬ ((Counter.mk (2 ^ 63 - 1) ∅).Get ≤ ((Counter.mk (2 ^ 63 - 1) ∅).Apply "e1" 1).2.Get) := by
  decide

/-- C19, amended. For every counter state, event id and delta that is not negative
and whose sum with the total is an `int64` (so for the delta 1 of every `Increment`
while the total is below the largest `int64`), the total returned by `Get()` after
`Apply` is greater than or equal to the total before it. -/
theorem apply_monotone_of_nonneg (c : Counter) (e : String) (d : Int) (hd : 0 ≤ d)
    (hr : InInt64 (c.Get + d)) : c.Get ≤ (c.Apply e d).2.Get := by
  by_cases h : e ∈ c.seen
  · rw [apply_of_seen c e d h]
  · rw [apply_of_not_seen c e d h]
    have hv : add64 c.value d = c.value + d := add64_eq_add hr
    show c.value ≤ add64 c.value d
    rw [hv]
    omega

theorem apply_monotone_of_nonneg_witness :
    ((0 : Int) ≤ 1 ∧ InInt64 (NewCounter.Get + 1)) ∧
      NewCounter.Get ≤ (NewCounter.Apply "e1" 1).2.Get :=
  ⟨⟨by decide, by decide⟩, apply_monotone_of_nonneg NewCounter "e1" 1 (by decide) (by decide)⟩

end Counter

/-! ## Join -/

namespace PeerService

theorem foldl_addPeer_ID (env : Env) (l : List String) (acc : PeerStore × World) :
    (l.foldl (fun acc p => acc.1.AddPeer env acc.2 p) acc).1.ID = acc.1.ID := by
  induction l generalizing acc with
  | nil => rfl
  | cons p l ih => rw [List.foldl_cons, ih, PeerStore.addPeer_ID]

theorem foldl_addPeer_sent (env : Env) (l : List String) (acc : PeerStore × World) :
    (l.foldl (fun acc p => acc.1.AddPeer env acc.2 p) acc).2.sent = acc.2.sent := by
  induction l generalizing acc with
  | nil => rfl
  | cons p l ih => rw [List.foldl_cons, ih, PeerStore.addPeer_sent]

theorem mem_foldl_addPeer (env : Env) (l : List String) (acc : PeerStore × World)
    (x : String) :
    x ∈ (l.foldl (fun acc p => acc.1.AddPeer env acc.2 p) acc).1.Peers ↔
      x ∈ acc.1.Peers ∨ (x ∈ l ∧ x ≠ acc.1.ID) := by
  induction l generalizing acc with
  | nil => simp
  | cons p l ih =>
    rw [List.foldl_cons, ih, PeerStore.mem_addPeer, PeerStore.addPeer_ID, List.mem_cons]
    constructor
    · rintro ((h | ⟨h1, h2⟩) | ⟨h1, h2⟩)
      · exact Or.inl h
      · exact Or.inr ⟨Or.inl h1, h1 ▸ h2⟩
      · exact Or.inr ⟨Or.inr h1, h2⟩
    · rintro (h | ⟨h1 | h1, h2⟩)
      · exact Or.inl (Or.inl h)
      · exact Or.inl (Or.inr ⟨h1, h1 ▸ h2⟩)
      · exact Or.inr ⟨h1, h2⟩

theorem joinPeer_of_error (env : Env) (join : JoinCall → Option (List String))
    (s : PeerService) (w : World) (a : String)
    (h : join { peerId := a, selfId := s.PStore.SelfID } = none) :
    JoinPeer env join s w a = ([{ peerId := a, selfId := s.PStore.SelfID }], s, w) := by
  simp [JoinPeer, h]

theorem joinPeer_of_ok (env : Env) (join : JoinCall → Option (List String))
    (s : PeerService) (w : World) (a : String) (peers : List String)
    (h : join { peerId := a, selfId := s.PStore.SelfID } = some peers) :
    JoinPeer env join s w a =
      ([{ peerId := a, selfId := s.PStore.SelfID }],
        { s with PStore := (peers.foldl (fun acc p => acc.1.AddPeer env acc.2 p)
            (s.PStore.AddPeer env w a)).1 },
        (peers.foldl (fun acc p => acc.1.AddPeer env acc.2 p)
            (s.PStore.AddPeer env w a)).2) := by
  simp [JoinPeer, h]

theorem mem_joinPeer (env : Env) (join : JoinCall → Option (List String))
    (s : PeerService) (w : World) (a : String) (peers : List String)
    (h : join { peerId := a, selfId := s.PStore.SelfID } = some peers) (x : String) :
    x ∈ (JoinPeer env join s w a).2.1.PStore.Peers ↔
      x ∈ s.PStore.Peers ∨ ((x = a ∨ x ∈ peers) ∧ x ≠ s.PStore.ID) := by
  rw [joinPeer_of_ok env join s w a peers h]
  show x ∈ (peers.foldl (fun acc p => acc.1.AddPeer env acc.2 p)
      (s.PStore.AddPeer env w a)).1.Peers ↔ _
  rw [mem_foldl_addPeer, PeerStore.mem_addPeer, PeerStore.addPeer_ID]
  constructor
  · rintro ((h1 | ⟨h1, h2⟩) | ⟨h1, h2⟩)
    · exact Or.inl h1
    · exact Or.inr ⟨Or.inl h1, h1 ▸ h2⟩
    · exact Or.inr ⟨Or.inr h1, h2⟩
  · rintro (h1 | ⟨h1 | h1, h2⟩)
    · exact Or.inl (Or.inl h1)
    · exact Or.inl (Or.inr ⟨h1, h1 ▸ h2⟩)
    · exact Or.inr ⟨h1, h2⟩

/-- C17. Transitive discovery through one seed: when `JoinCluster(a, self)` returns
the list `L` without error, `JoinPeer(a)` makes that one call and afterwards the peers
of the registry are the previous peers together with `a` and the elements of `L`,
the node's own id left out of what is added; when the own id was not a peer before
(as in every reachable registry) that is the union of all three sets minus the own
id. So when seed B returns `[C]`, A's peer list contains both B and C. -/
theorem joinPeer_adds_seed_and_its_peers (env : Env)
    (join : JoinCall → Option (List String)) (s : PeerService) (w : World) (a : String)
    (L : List String) (h : join { peerId := a, selfId := s.PStore.SelfID } = some L) :
    (JoinPeer env join s w a).1 = [{ peerId := a, selfId := s.PStore.SelfID }] ∧
    (∀ x : String, x ∈ (JoinPeer env join s w a).2.1.GetPeersList ↔
      x ∈ s.GetPeersList ∨ ((x = a ∨ x ∈ L) ∧ x ≠ s.PStore.ID)) ∧
    (s.PStore.ID ∉ s.GetPeersList →
      ∀ x : String, x ∈ (JoinPeer env join s w a).2.1.GetPeersList ↔
        (x ∈ s.GetPeersList ∨ x = a ∨ x ∈ L) ∧ x ≠ s.PStore.ID) := by
  have key : ∀ x : String, x ∈ (JoinPeer env join s w a).2.1.GetPeersList ↔
      x ∈ s.GetPeersList ∨ ((x = a ∨ x ∈ L) ∧ x ≠ s.PStore.ID) := by
    intro x
    unfold GetPeersList PeerStore.GetPeers
    rw [← AList.mem_keys, ← AList.mem_keys]
    exact mem_joinPeer env join s w a L h x
  refine ⟨by rw [joinPeer_of_ok env join s w a L h], key, fun hself x => ?_⟩
  rw [key x]
  constructor
  · rintro (h1 | ⟨h1, h2⟩)
    · exact ⟨Or.inl h1, fun hx => hself (hx ▸ h1)⟩
    · exact ⟨Or.inr h1, h2⟩
  · rintro ⟨h1 | h1, h2⟩
    · exact Or.inl h1
    · exact Or.inr ⟨h1, h2⟩

theorem joinPeer_adds_seed_and_its_peers_witness :
    (fun _ : JoinCall => some ["n3"])
        { peerId := "n2", selfId := (NewPeerService "n1" (PeerStore.NewPeerStore "n1")
            Counter.NewCounter).PStore.SelfID } = some ["n3"] ∧
      "n2" ∈ (JoinPeer failingEnv (fun _ => some ["n3"])
        (NewPeerService "n1" (PeerStore.NewPeerStore "n1") Counter.NewCounter)
        World.start "n2").2.1.GetPeersList ∧
      "n3" ∈ (JoinPeer failingEnv (fun _ => some ["n3"])
        (NewPeerService "n1" (PeerStore.NewPeerStore "n1") Counter.NewCounter)
        World.start "n2").2.1.GetPeersList :=
  ⟨rfl,
    ((joinPeer_adds_seed_and_its_peers failingEnv (fun _ => some ["n3"])
      (NewPeerService "n1" (PeerStore.NewPeerStore "n1") Counter.NewCounter)
      World.start "n2" ["n3"] rfl).2.1 "n2").mpr (Or.inr ⟨Or.inl rfl, by decide⟩),
    ((joinPeer_adds_seed_and_its_peers failingEnv (fun _ => some ["n3"])
      (NewPeerService "n1" (PeerStore.NewPeerStore "n1") Counter.NewCounter)
      World.start "n2" ["n3"] rfl).2.1 "n3").mpr
        (Or.inr ⟨Or.inr (List.mem_singleton.mpr rfl), by decide⟩)⟩

/-- C18. Best-effort join is atomic on failure: when `JoinCluster(a, self)` returns an
error, `JoinPeer(a)` makes exactly that one `JoinCluster` call and leaves the whole
service state (registry, counter, pending queue) and the world unchanged, so neither
`a` nor any other peer is added. -/
theorem joinPeer_error_changes_nothing (env : Env)
    (join : JoinCall → Option (List String)) (s : PeerService) (w : World) (a : String)
    (h : join { peerId := a, selfId := s.PStore.SelfID } = none) :
    (JoinPeer env join s w a).1 = [{ peerId := a, selfId := s.PStore.SelfID }] ∧
    (JoinPeer env join s w a).2.1 = s ∧
    (JoinPeer env join s w a).2.1.PStore = s.PStore ∧
    (JoinPeer env join s w a).2.1.GetPeersList = s.GetPeersList ∧
    (JoinPeer env join s w a).2.1.Counter = s.Counter ∧
    (JoinPeer env join s w a).2.1.Pending = s.Pending ∧
    (JoinPeer env join s w a).2.2 = w := by
  rw [joinPeer_of_error env join s w a h]
  exact ⟨rfl, rfl, rfl, rfl, rfl, rfl, rfl⟩

theorem joinPeer_error_changes_nothing_witness :
    (fun _ : JoinCall => (none : Option (List String)))
        { peerId := "n4", selfId := demoService.PStore.SelfID } = none ∧
      (JoinPeer failingEnv (fun _ => none) demoService World.start "n4").2.1 = demoService :=
  ⟨rfl,
    (joinPeer_error_changes_nothing failingEnv (fun _ => none) demoService World.start "n4"
      rfl).2.1⟩

end PeerService


/-! ## Fail once, succeed on the first retry -/

namespace PeerService

theorem erase_singleton (p : String) (q : List PendingEvent) :
    (AList.singleton p q : AList (fun _ : String => List PendingEvent)).erase p = ∅ := by
  apply AList.ext
  simp [AList.erase, AList.singleton, List.kerase]

theorem syncPending_of_empty (env : Env) (s : PeerService) (w : World)
    (h : s.Pending = ∅) :
    (syncPending env s w).1 = s ∧ (syncPending env s w).2.sent = w.sent := by
  unfold syncPending
  rw [h]
  exact ⟨rfl, rfl⟩

/-- C11. Fail once, succeed on the first retry: starting from an empty pending map,
`sendOrQueue(p, e)` whose send fails, at clock reading `t0`, leaves exactly one pending
entry `(e, 0, t0)` under `p`; a `syncPending` at a clock reading `t1 >= t0` whose send
succeeds removes it again. In total exactly two `SendIncrement(p, self, e)` calls are
made, afterwards the pending map is empty, so `p` is not a key of it, and every later
retry pass sends nothing. -/
theorem fail_once_then_retry (envF envS : Env) (s : PeerService) (w : World)
    (p e : String) (hempty : s.Pending = ∅)
    (hfail : envF.SendIncrement w.sent
      { peer := p, selfId := s.SelfId, eventId := e } = false)
    (hok : envS.SendIncrement (w.sent ++ [{ peer := p, selfId := s.SelfId, eventId := e }])
      { peer := p, selfId := s.SelfId, eventId := e } = true)
    (ht : envF.Now w.ticks ≤ envS.Now (w.ticks + 1)) :
    (sendOrQueue envF s w p e).1.Pending =
      AList.singleton p [{ EventID := e, Attempt := 0, NextRetry := envF.Now w.ticks }] ∧
    (sendOrQueue envF s w p e).2.sent =
      w.sent ++ [{ peer := p, selfId := s.SelfId, eventId := e }] ∧
    (syncPending envS (sendOrQueue envF s w p e).1 (sendOrQueue envF s w p e).2).2.sent =
      w.sent ++ [{ peer := p, selfId := s.SelfId, eventId := e },
                 { peer := p, selfId := s.SelfId, eventId := e }] ∧
    (syncPending envS (sendOrQueue envF s w p e).1
      (sendOrQueue envF s w p e).2).1.Pending = ∅ ∧
    p ∉ (syncPending envS (sendOrQueue envF s w p e).1
      (sendOrQueue envF s w p e).2).1.Pending ∧
    ∀ (env2 : Env) (w2 : World),
      (syncPending env2 (syncPending envS (sendOrQueue envF s w p e).1
        (sendOrQueue envF s w p e).2).1 w2).2.sent = w2.sent ∧
      (syncPending env2 (syncPending envS (sendOrQueue envF s w p e).1
        (sendOrQueue envF s w p e).2).1 w2).1.Pending = ∅ := by
  have h1 : (sendOrQueue envF s w p e).1.Pending =
      AList.singleton p [{ EventID := e, Attempt := 0, NextRetry := envF.Now w.ticks }] := by
    rw [sendOrQueue_of_fail envF s w p e hfail]
    simp only [enqueue, queue, hempty, AList.lookup_empty, Option.getD_none, List.nil_append]
    exact AList.insert_empty _ _
  have h2 := (sendOrQueue_frame envF s w p e).2.2.2
  have hself := (sendOrQueue_frame envF s w p e).1
  have hticks : (sendOrQueue envF s w p e).2.ticks = w.ticks + 1 := by
    rw [sendOrQueue_of_fail envF s w p e hfail]
    rfl
  have hdue : ¬ envS.Now (w.ticks + 1) < envF.Now w.ticks := not_lt.mpr ht
  have h3 : syncPending envS (sendOrQueue envF s w p e).1 (sendOrQueue envF s w p e).2 =
      ({ (sendOrQueue envF s w p e).1 with Pending := ∅ },
        { sent := w.sent ++ [{ peer := p, selfId := s.SelfId, eventId := e },
                 { peer := p, selfId := s.SelfId, eventId := e }],
          ticks := w.ticks + 2 }) := by
    unfold syncPending
    rw [h1, hticks]
    simp only [AList.singleton_entries, List.foldl_cons, List.foldl_nil]
    have hr : retryEvents envS s.SelfId p (envS.Now (w.ticks + 1))
        [{ EventID := e, Attempt := 0, NextRetry := envF.Now w.ticks }]
        { sent := (sendOrQueue envF s w p e).2.sent, ticks := w.ticks + 1 + 1 } =
        ([], { sent := w.sent ++ [{ peer := p, selfId := s.SelfId, eventId := e },
                 { peer := p, selfId := s.SelfId, eventId := e }],
               ticks := w.ticks + 2 }) := by
      rw [retryEvents_cons_ok _ _ _ _ _ _ _ hdue (by rw [h2]; exact hok), h2]
      simp [retryEvents]
    rw [syncPeer_of_nil _ _ _ _ (by simp only [hself]; rw [hr])]
    simp only [hself, hr, h1]
    rw [erase_singleton]
  refine ⟨h1, h2, ?_, ?_, ?_, ?_⟩
  · rw [h3]
  · rw [h3]
  · rw [h3]
    exact AList.not_mem_empty p
  · intro env2 w2
    rw [h3]
    have := syncPending_of_empty env2
      { (sendOrQueue envF s w p e).1 with Pending := ∅ } w2 rfl
    exact ⟨this.2, by rw [this.1]⟩

theorem fail_once_then_retry_witness :
    (demoService.Pending = ∅ ∧
      failingEnv.SendIncrement World.start.sent
        { peer := "n2", selfId := demoService.SelfId, eventId := "e1" } = false ∧
      deliveringEnv.SendIncrement
        (World.start.sent ++ [{ peer := "n2", selfId := demoService.SelfId, eventId := "e1" }])
        { peer := "n2", selfId := demoService.SelfId, eventId := "e1" } = true ∧
      failingEnv.Now World.start.ticks ≤ deliveringEnv.Now (World.start.ticks + 1)) ∧
    (syncPending deliveringEnv (sendOrQueue failingEnv demoService World.start "n2" "e1").1
      (sendOrQueue failingEnv demoService World.start "n2" "e1").2).1.Pending = ∅ :=
  ⟨⟨rfl, by decide, by decide, by decide⟩,
    (fail_once_then_retry failingEnv deliveringEnv demoService World.start "n2" "e1"
      rfl (by decide) (by decide) (by decide)).2.2.2.1⟩

end PeerService

/-! ## Self is never a peer -/

theorem registryStep_invariant (env : Env) (sw : PeerService × World)
    (a : RegistryAction) (h : sw.1.PStore.ID ∉ sw.1.PStore.Peers) :
    (registryStep env sw a).1.PStore.ID = sw.1.PStore.ID ∧
    sw.1.PStore.ID ∉ (registryStep env sw a).1.PStore.Peers := by
  cases a with
  | addPeer id =>
    refine ⟨PeerStore.addPeer_ID _ _ _ _, ?_⟩
    show sw.1.PStore.ID ∉ (sw.1.PStore.AddPeer env sw.2 id).1.Peers
    rw [PeerStore.mem_addPeer]
    rintro (h1 | ⟨h1, h2⟩)
    · exact h h1
    · exact h2 h1.symm
  | removePeer id =>
    refine ⟨rfl, ?_⟩
    show sw.1.PStore.ID ∉ sw.1.PStore.Peers.erase id
    rw [AList.mem_erase]
    exact fun h1 => h h1.2
  | joinPeer address answer =>
    cases answer with
    | none =>
      simp only [registryStep]
      rw [PeerService.joinPeer_of_error env _ sw.1 sw.2 address rfl]
      exact ⟨rfl, h⟩
    | some peers =>
      simp only [registryStep]
      refine ⟨?_, ?_⟩
      · rw [PeerService.joinPeer_of_ok env _ sw.1 sw.2 address peers rfl]
        show (peers.foldl (fun acc p => acc.1.AddPeer env acc.2 p)
          (sw.1.PStore.AddPeer env sw.2 address)).1.ID = _
        rw [PeerService.foldl_addPeer_ID, PeerStore.addPeer_ID]
      · rw [PeerService.mem_joinPeer env _ sw.1 sw.2 address peers rfl]
        rintro (h1 | ⟨_, h2⟩)
        · exact h h1
        · exact h2 rfl

theorem registryRun_invariant (env : Env) (calls : List RegistryAction) :
    ∀ sw : PeerService × World, sw.1.PStore.ID ∉ sw.1.PStore.Peers →
      (registryRun env sw calls).1.PStore.ID = sw.1.PStore.ID ∧
      sw.1.PStore.ID ∉ (registryRun env sw calls).1.PStore.Peers := by
  induction calls with
  | nil => intro sw h; exact ⟨rfl, h⟩
  | cons a rest ih =>
    intro sw h
    obtain ⟨h1, h2⟩ := registryStep_invariant env sw a h
    have := ih (registryStep env sw a) (by rw [h1]; exact h2)
    rw [h1] at this
    exact this

/-- C20. The node's own identifier is never stored as a peer: in every store reached
from `NewPeerStore(self)` by any sequence of `AddPeer`, `RemovePeer` and `JoinPeer`
calls, whatever the joins return (a list containing `self` included), `self` is not a
key of the peer map and is neither in `GetPeers()` nor in `SnapshotOfPeers()`. -/
theorem self_never_stored (env : Env) (self selfId : String)
    (counter : ServiceDiscovery.Counter) (w : World) (calls : List RegistryAction) :
    self ∉ (registryRun env
      (PeerService.NewPeerService selfId (PeerStore.NewPeerStore self) counter, w)
      calls).1.PStore.Peers ∧
    self ∉ (registryRun env
      (PeerService.NewPeerService selfId (PeerStore.NewPeerStore self) counter, w)
      calls).1.PStore.GetPeers ∧
    self ∉ (registryRun env
      (PeerService.NewPeerService selfId (PeerStore.NewPeerStore self) counter, w)
      calls).1.PStore.SnapshotOfPeers := by
  have h := (registryRun_invariant env calls
    (PeerService.NewPeerService selfId (PeerStore.NewPeerStore self) counter, w)
    (AList.not_mem_empty _)).2
  exact ⟨h, fun hm => h (AList.mem_keys.mpr hm),
    fun hm => h ((PeerStore.mem_snapshotOfPeers _ _).mp hm)⟩


/-! ## Cleanup -/

theorem timeSub_gt_six_seconds (t u : Int) :
    timeSub t u > 6 * Second ↔ t - u > 6 * Second := by
  unfold timeSub maxDuration minDuration Second
  split_ifs <;> omega

namespace PeerService

theorem cleanup_foldl (now : Int) (l : List ((_ : String) × Int))
    (acc : List String × PeerStore) :
    (l.foldl (fun (acc : List String × PeerStore) ent =>
        if timeSub now ent.2 > 6 * Second then (acc.1 ++ [ent.1], acc.2.RemovePeer ent.1)
        else acc) acc).1 =
      acc.1 ++ (l.filter (fun ent => decide (timeSub now ent.2 > 6 * Second))).map
        (fun ent => ent.1) ∧
    ∀ k : String,
      (l.foldl (fun (acc : List String × PeerStore) ent =>
        if timeSub now ent.2 > 6 * Second then (acc.1 ++ [ent.1], acc.2.RemovePeer ent.1)
        else acc) acc).2.Peers.lookup k =
      if k ∈ (l.filter (fun ent => decide (timeSub now ent.2 > 6 * Second))).map
          (fun ent => ent.1)
      then none else acc.2.Peers.lookup k := by
  induction l generalizing acc with
  | nil => simp
  | cons ent l ih =>
    rw [List.foldl_cons]
    by_cases hs : timeSub now ent.2 > 6 * Second
    · rw [if_pos hs]
      obtain ⟨h1, h2⟩ := ih (acc.1 ++ [ent.1], acc.2.RemovePeer ent.1)
      refine ⟨?_, fun k => ?_⟩
      · rw [h1]
        simp [List.filter_cons, hs]
      · rw [h2 k]
        simp only [List.filter_cons, hs, decide_True, if_true, List.map_cons, List.mem_cons]
        by_cases hk : k = ent.1
        · subst hk
          simp [PeerStore.RemovePeer]
        · simp only [hk, false_or]
          split
          · rfl
          · exact AList.lookup_erase_ne hk
    · rw [if_neg hs]
      obtain ⟨h1, h2⟩ := ih acc
      have hf : (ent :: l).filter (fun ent => decide (timeSub now ent.2 > 6 * Second)) =
          l.filter (fun ent => decide (timeSub now ent.2 > 6 * Second)) :=
        List.filter_cons_of_neg (by simpa using hs)
      rw [hf]
      exact ⟨h1, h2⟩

theorem mem_cleanup_calls (now : Int) (ps : PeerStore) (p : String) :
    p ∈ (ps.SnapshotOfPeers.entries.filter
        (fun ent => decide (timeSub now ent.2 > 6 * Second))).map (fun ent => ent.1) ↔
      ∃ last : Int, ps.Peers.lookup p = some last ∧ now - last > 6 * Second := by
  simp only [List.mem_map, List.mem_filter, decide_eq_true_eq]
  constructor
  · rintro ⟨⟨a, b⟩, ⟨hm, hs⟩, rfl⟩
    refine ⟨b, ?_, (timeSub_gt_six_seconds now b).mp hs⟩
    rw [← PeerStore.snapshotOfPeers_lookup]
    exact AList.mem_lookup_iff.mpr hm
  · rintro ⟨last, hl, hs⟩
    rw [← PeerStore.snapshotOfPeers_lookup] at hl
    exact ⟨⟨p, last⟩, ⟨AList.mem_lookup_iff.mp hl, (timeSub_gt_six_seconds now last).mpr hs⟩,
      rfl⟩

theorem cleanupPass_calls (env : Env) (s : PeerService) (w : World) :
    (cleanupPass env s w).1 =
      (s.PStore.SnapshotOfPeers.entries.filter
        (fun ent => decide (timeSub (env.Now w.ticks) ent.2 > 6 * Second))).map
          (fun ent => ent.1) := by
  unfold cleanupPass
  simp only
  rw [(cleanup_foldl _ _ _).1]
  simp

theorem cleanupPass_lookup (env : Env) (s : PeerService) (w : World) (k : String) :
    (cleanupPass env s w).2.1.PStore.Peers.lookup k =
      if k ∈ (cleanupPass env s w).1 then none else s.PStore.Peers.lookup k := by
  rw [cleanupPass_calls]
  unfold cleanupPass
  simp only
  rw [(cleanup_foldl _ _ _).2 k]

/-- C12. A cleanup pass evicts exactly the stale peers: with `now` the clock reading
of the pass, one iteration of `StartCleanup` calls `RemovePeer`, once each, on
precisely the peers of the registry whose last-contact time `last` satisfies
`now - last > 6s`; those are gone afterwards, and every other peer (one silent for 6 s
or less included) is kept with its timestamp unchanged. -/
theorem cleanupPass_evicts_stale (env : Env) (s : PeerService) (w : World) :
    (∀ p : String, p ∈ (cleanupPass env s w).1 ↔
      ∃ last : Int, s.PStore.Peers.lookup p = some last ∧
        env.Now w.ticks - last > 6 * Second) ∧
    (cleanupPass env s w).1.Nodup ∧
    (∀ p : String, p ∈ (cleanupPass env s w).1 →
      (cleanupPass env s w).2.1.PStore.Peers.lookup p = none) ∧
    (∀ p : String, p ∉ (cleanupPass env s w).1 →
      (cleanupPass env s w).2.1.PStore.Peers.lookup p = s.PStore.Peers.lookup p) ∧
    (∀ (p : String) (last : Int), s.PStore.Peers.lookup p = some last →
      env.Now w.ticks - last ≤ 6 * Second →
      p ∉ (cleanupPass env s w).1 ∧
      (cleanupPass env s w).2.1.PStore.Peers.lookup p = some last) := by
  have hmem : ∀ p : String, p ∈ (cleanupPass env s w).1 ↔
      ∃ last : Int, s.PStore.Peers.lookup p = some last ∧
        env.Now w.ticks - last > 6 * Second := by
    intro p
    rw [cleanupPass_calls]
    exact mem_cleanup_calls _ _ p
  refine ⟨hmem, ?_, fun p hp => ?_, fun p hp => ?_, fun p last hl hfresh => ?_⟩
  · rw [cleanupPass_calls]
    have hsub : ((s.PStore.SnapshotOfPeers.entries.filter
        (fun ent => decide (timeSub (env.Now w.ticks) ent.2 > 6 * Second))).map
          (fun ent => ent.1)).Sublist s.PStore.SnapshotOfPeers.keys :=
      List.Sublist.map _ (List.filter_sublist _)
    exact hsub.nodup s.PStore.SnapshotOfPeers.keys_nodup
  · rw [cleanupPass_lookup, if_pos hp]
  · rw [cleanupPass_lookup, if_neg hp]
  · have hnot : p ∉ (cleanupPass env s w).1 := by
      rw [hmem p]
      rintro ⟨last2, hl2, hs⟩
      rw [hl] at hl2
      have := Option.some.inj hl2
      omega
    exact ⟨hnot, by rw [cleanupPass_lookup, if_neg hnot, hl]⟩

theorem cleanupPass_evicts_stale_witness :
    (demoAging.PStore.Peers.lookup "n2" = some 0 ∧
      failingEnv.Now World.afterOneReading.ticks - 0 > 6 * Second ∧
      demoAging.PStore.Peers.lookup "n3" = some 10000000000 ∧
      failingEnv.Now World.afterOneReading.ticks - 10000000000 ≤ 6 * Second) ∧
    "n2" ∈ (cleanupPass failingEnv demoAging World.afterOneReading).1 ∧
    "n3" ∉ (cleanupPass failingEnv demoAging World.afterOneReading).1 ∧
    (cleanupPass failingEnv demoAging World.afterOneReading).2.1.PStore.Peers.lookup "n3" =
      some 10000000000 :=
  ⟨⟨by decide, by decide, by decide, by decide⟩,
    ((cleanupPass_evicts_stale failingEnv demoAging World.afterOneReading).1 "n2").mpr
      ⟨0, by decide, by decide⟩,
    (cleanupPass_evicts_stale failingEnv demoAging World.afterOneReading).2.2.2.2 "n3"
      10000000000 (by decide) (by decide)⟩

end PeerService

/-! ## The snapshot is a copy -/

namespace PeerStoreRef

theorem set_obj_of_ne (h : MapHeap) (m r : Nat) (k : String) (v : Int) (hr : r ≠ m) :
    (h.set m k v).obj r = h.obj r :=
  Function.update_noteq hr _ _

theorem delete_obj_of_ne (h : MapHeap) (m r : Nat) (k : String) (hr : r ≠ m) :
    (h.delete m k).obj r = h.obj r :=
  Function.update_noteq hr _ _

theorem updateAll_obj_of_ne (m r : Nat) (hr : r ≠ m) (ups : List MapUpdate) :
    ∀ h : MapHeap, (updateAll h m ups).obj r = h.obj r := by
  induction ups with
  | nil => intro h; rfl
  | cons u rest ih =>
    intro h
    cases u with
    | store k v => rw [updateAll, ih, set_obj_of_ne h m r k v hr]
    | remove k => rw [updateAll, ih, delete_obj_of_ne h m r k hr]

theorem foldl_set_obj (c : Nat) (l : List ((_ : String) × Int)) :
    ∀ h : MapHeap,
      (l.foldl (fun hh ent => hh.set c ent.1 ent.2) h).obj c =
        l.foldl (fun copy ent => copy.insert ent.1 ent.2) (h.obj c) ∧
      ∀ r : Nat, r ≠ c →
        (l.foldl (fun hh ent => hh.set c ent.1 ent.2) h).obj r = h.obj r := by
  induction l with
  | nil => intro h; exact ⟨rfl, fun _ _ => rfl⟩
  | cons ent l ih =>
    intro h
    rw [List.foldl_cons, List.foldl_cons]
    obtain ⟨h1, h2⟩ := ih (h.set c ent.1 ent.2)
    refine ⟨?_, fun r hr => ?_⟩
    · rw [h1]
      simp [MapHeap.set]
    · rw [h2 r hr, set_obj_of_ne h c r ent.1 ent.2 hr]

/-- C16. `SnapshotOfPeers` returns a copy, not an alias: for every store whose
`Peers` refers to an allocated map object, the reference returned is a new one; the
map it refers to holds exactly the registry's peers with their last-contact times (it
is the map `PeerStore.SnapshotOfPeers` computes); the registry's own map object is
untouched by the call, and whatever sequence of insertions, changes and deletions is
then made through the returned reference, the registry's map and the output of
`GetPeers()` stay as they were. -/
theorem snapshot_is_a_copy (h : MapHeap) (ps : PeerStoreRef) (hv : ps.Peers < h.next)
    (ups : List MapUpdate) :
    (SnapshotOfPeers h ps).1 ≠ ps.Peers ∧
    (SnapshotOfPeers h ps).2.obj (SnapshotOfPeers h ps).1 =
      PeerStore.SnapshotOfPeers { ID := ps.ID, Peers := h.obj ps.Peers } ∧
    (∀ k : String, ((SnapshotOfPeers h ps).2.obj (SnapshotOfPeers h ps).1).lookup k =
      (h.obj ps.Peers).lookup k) ∧
    (SnapshotOfPeers h ps).2.obj ps.Peers = h.obj ps.Peers ∧
    (updateAll (SnapshotOfPeers h ps).2 (SnapshotOfPeers h ps).1 ups).obj ps.Peers =
      h.obj ps.Peers ∧
    GetPeers (updateAll (SnapshotOfPeers h ps).2 (SnapshotOfPeers h ps).1 ups) ps =
      GetPeers h ps := by
  have hne : ps.Peers ≠ h.next := Nat.ne_of_lt hv
  have hfst : (SnapshotOfPeers h ps).1 = h.next := rfl
  have hfold := foldl_set_obj h.next (h.obj ps.Peers).entries h.make.2
  have hcopy : (SnapshotOfPeers h ps).2.obj (SnapshotOfPeers h ps).1 =
      PeerStore.SnapshotOfPeers { ID := ps.ID, Peers := h.obj ps.Peers } := by
    rw [hfst]
    show ((h.obj ps.Peers).entries.foldl (fun hh ent => hh.set h.next ent.1 ent.2)
      h.make.2).obj h.next = _
    rw [hfold.1]
    simp [MapHeap.make, PeerStore.SnapshotOfPeers]
  have hkeep : (SnapshotOfPeers h ps).2.obj ps.Peers = h.obj ps.Peers := by
    show ((h.obj ps.Peers).entries.foldl (fun hh ent => hh.set h.next ent.1 ent.2)
      h.make.2).obj ps.Peers = _
    rw [hfold.2 ps.Peers hne]
    exact Function.update_noteq hne _ _
  have hup : (updateAll (SnapshotOfPeers h ps).2 (SnapshotOfPeers h ps).1 ups).obj ps.Peers =
      h.obj ps.Peers := by
    rw [updateAll_obj_of_ne _ _ (by rw [hfst]; exact hne), hkeep]
  refine ⟨by rw [hfst]; exact hne.symm, hcopy, fun k => ?_, hkeep, hup, ?_⟩
  · rw [hcopy]
    exact PeerStore.snapshotOfPeers_lookup _ k
  · unfold GetPeers
    rw [hup]

theorem snapshot_is_a_copy_witness :
    demoStoreRef.Peers < demoHeap.next ∧
      GetPeers (updateAll (SnapshotOfPeers demoHeap demoStoreRef).2
          (SnapshotOfPeers demoHeap demoStoreRef).1
          [.store "n4" 5, .remove "n2", .store "n3" 7]) demoStoreRef =
        GetPeers demoHeap demoStoreRef :=
  ⟨by decide,
    (snapshot_is_a_copy demoHeap demoStoreRef (by decide)
      [.store "n4" 5, .remove "n2", .store "n3" 7]).2.2.2.2.2⟩

end PeerStoreRef


/-! ## A retry pass creates nothing -/

namespace PeerService

theorem retryEvents_kept (env : Env) (selfId peer : String) (now : Int)
    (evs : List PendingEvent) :
    ∀ w : World, ∃ kept : List PendingEvent, kept.Sublist evs ∧
      List.Forall₂ (fun old new => new.EventID = old.EventID ∧ old.Attempt ≤ new.Attempt)
        kept (retryEvents env selfId peer now evs w).1 := by
  induction evs with
  | nil => intro w; exact ⟨[], List.Sublist.refl _, List.Forall₂.nil⟩
  | cons e rest ih =>
    intro w
    by_cases h : now < e.NextRetry
    · obtain ⟨kept, hsub, hrel⟩ := ih w
      rw [retryEvents_cons_not_due _ _ _ _ _ _ _ h]
      exact ⟨e :: kept, hsub.cons₂ e, List.Forall₂.cons ⟨rfl, le_refl _⟩ hrel⟩
    · by_cases hs : env.SendIncrement w.sent
          { peer := peer, selfId := selfId, eventId := e.EventID } = true
      · rw [retryEvents_cons_ok _ _ _ _ _ _ _ h hs]
        obtain ⟨kept, hsub, hrel⟩ := ih
          { w with sent :=
              w.sent ++ [{ peer := peer, selfId := selfId, eventId := e.EventID }] }
        exact ⟨kept, hsub.cons e, hrel⟩
      · have hs2 : env.SendIncrement w.sent
            { peer := peer, selfId := selfId, eventId := e.EventID } = false := by
          simpa using hs
        rw [retryEvents_cons_fail _ _ _ _ _ _ _ h hs2]
        obtain ⟨kept, hsub, hrel⟩ := ih
          { sent := w.sent ++ [{ peer := peer, selfId := selfId, eventId := e.EventID }],
            ticks := w.ticks + 1 }
        exact ⟨e :: kept, hsub.cons₂ e,
          List.Forall₂.cons ⟨rfl, Nat.le_succ _⟩ hrel⟩

theorem map_eventID_of_related (kept rem : List PendingEvent)
    (h : List.Forall₂
      (fun old new => new.EventID = old.EventID ∧ old.Attempt ≤ new.Attempt) kept rem) :
    rem.map (fun ev => ev.EventID) = kept.map (fun ev => ev.EventID) := by
  induction h with
  | nil => rfl
  | cons hab _ ih => simp [hab.1, ih]

theorem syncPending_queue (env : Env) (s : PeerService) (w : World) (p : String) :
    ∃ wA : World, (syncPending env s w).1.queue p =
      (retryEvents env s.SelfId p (env.Now w.ticks) (s.queue p) wA).1 := by
  cases h : s.Pending.lookup p with
  | none =>
    refine ⟨w, ?_⟩
    have h1 := syncPending_lookup_none env s w p h
    simp [queue, h, h1, retryEvents]
  | some evs =>
    obtain ⟨wA, _, _, _, _, h3⟩ := syncPending_lookup_some env s w p evs h
    refine ⟨wA, ?_⟩
    rw [queue_eq_of_lookup _ _ _ h3]
    simp [queue, h]

/-- C23. A retry pass never creates, duplicates or reorders obligations: for every
state, clock and transport, after `syncPending` no peer is a key of `Pending` that
was not one before; the queue of each peer consists, in order, of entries that come
from a subsequence of its queue before the pass, each with the same `EventID` and an
`Attempt` that is not smaller; so the sequence of its `EventID`s is a subsequence of
the one before the pass. -/
theorem syncPending_creates_nothing (env : Env) (s : PeerService) (w : World)
    (p : String) :
    (p ∈ (syncPending env s w).1.Pending → p ∈ s.Pending) ∧
    (((syncPending env s w).1.queue p).map (fun ev => ev.EventID)).Sublist
      ((s.queue p).map (fun ev => ev.EventID)) ∧
    ∃ kept : List PendingEvent, kept.Sublist (s.queue p) ∧
      List.Forall₂ (fun old new => new.EventID = old.EventID ∧ old.Attempt ≤ new.Attempt)
        kept ((syncPending env s w).1.queue p) := by
  obtain ⟨wA, hq⟩ := syncPending_queue env s w p
  obtain ⟨kept, hsub, hrel⟩ :=
    retryEvents_kept env s.SelfId p (env.Now w.ticks) (s.queue p) wA
  rw [← hq] at hrel
  refine ⟨fun hp => ?_, ?_, kept, hsub, hrel⟩
  · by_contra hn
    have h1 := syncPending_lookup_none env s w p (AList.lookup_eq_none.mpr hn)
    exact (AList.lookup_eq_none.mp h1) hp
  · rw [map_eventID_of_related kept _ hrel]
    exact hsub.map _

theorem syncPending_creates_nothing_witness :
    "n2" ∈ (syncPending failingEnv demoPending World.start).1.Pending ∧
      "n2" ∈ demoPending.Pending :=
  ⟨by decide,
    (syncPending_creates_nothing failingEnv demoPending World.start "n2").1 (by decide)⟩

end PeerService

/-! ## Transport client -/

namespace Client

theorem sendIncrement_of_response (http : Http) (peer selfId eventId : String)
    (resp : HttpResponse)
    (hu : http.newRequestOk ("http://" ++ peer ++ "/counter/replicate") = true)
    (hd : http.Do { method := "POST", url := "http://" ++ peer ++ "/counter/replicate",
                    nodeId := selfId, eventId := eventId } = some resp) :
    SendIncrement http peer selfId eventId = none := by
  simp [SendIncrement, hu, hd]

theorem sendIncrement_ne_none_iff (http : Http) (peer selfId eventId : String) :
    SendIncrement http peer selfId eventId ≠ none ↔
      (http.newRequestOk ("http://" ++ peer ++ "/counter/replicate") = false ∨
        http.Do { method := "POST", url := "http://" ++ peer ++ "/counter/replicate",
                  nodeId := selfId, eventId := eventId } = none) := by
  cases hu : http.newRequestOk ("http://" ++ peer ++ "/counter/replicate") with
  | false => simp [SendIncrement, hu]
  | true =>
    cases hd : http.Do { method := "POST", url := "http://" ++ peer ++ "/counter/replicate",
                         nodeId := selfId, eventId := eventId } with
    | none => simp [SendIncrement, hu, hd]
    | some resp => simp [SendIncrement, hu, hd]

/-- C22 as stated fails: a peer that answers the replicate request with the status
500 makes `Client.SendIncrement` return the nil error, and `sendOrQueue` over that
client enqueues nothing: the peer has no queue afterwards. -/
theorem sendIncrement_ignores_status :
    failingPeerHttp.Do { method := "POST", url := "http://n2/counter/replicate",
                         nodeId := "n1", eventId := "e1" } = some { StatusCode := 500 } ∧
    SendIncrement failingPeerHttp "n2" "n1" "e1" = none ∧
    "n2" ∉ (PeerService.sendOrQueue (env failingPeerHttp failingEnv.Now) demoService
      World.start "n2" "e1").1.Pending ∧
    (PeerService.sendOrQueue (env failingPeerHttp failingEnv.Now) demoService
      World.start "n2" "e1").1.queue "n2" = [] := by
  decide

/-- C22, amended. `Client.SendIncrement` returns a non-nil error exactly when the
request cannot be formed or `httpClient.Do` returns an error (no response arrives);
then `sendOrQueue` appends a pending event for the peer. When a response arrives,
whatever its HTTP status, `SendIncrement` returns nil and `sendOrQueue` leaves the
service as it is. -/
theorem sendIncrement_error_iff_no_response (http : Http) (now : Nat → Int)
    (s : PeerService) (w : World) (peer eventId : String) :
    (SendIncrement http peer s.SelfId eventId ≠ none ↔
      (http.newRequestOk ("http://" ++ peer ++ "/counter/replicate") = false ∨
        http.Do { method := "POST", url := "http://" ++ peer ++ "/counter/replicate",
                  nodeId := s.SelfId, eventId := eventId } = none)) ∧
    (SendIncrement http peer s.SelfId eventId ≠ none →
      (PeerService.sendOrQueue (env http now) s w peer eventId).1.Pending.lookup peer =
        some (s.queue peer ++
          [{ EventID := eventId, Attempt := 0, NextRetry := now w.ticks }])) ∧
    (∀ resp : HttpResponse,
      http.newRequestOk ("http://" ++ peer ++ "/counter/replicate") = true →
      http.Do { method := "POST", url := "http://" ++ peer ++ "/counter/replicate",
                nodeId := s.SelfId, eventId := eventId } = some resp →
      SendIncrement http peer s.SelfId eventId = none ∧
      (PeerService.sendOrQueue (env http now) s w peer eventId).1 = s) := by
  refine ⟨sendIncrement_ne_none_iff http peer s.SelfId eventId, fun hne => ?_,
    fun resp hu hd => ?_⟩
  · have hf : (env http now).SendIncrement w.sent
        { peer := peer, selfId := s.SelfId, eventId := eventId } = false := by
      show (SendIncrement http peer s.SelfId eventId).isNone = false
      cases h : SendIncrement http peer s.SelfId eventId with
      | none => exact absurd h hne
      | some e => rfl
    rw [PeerService.sendOrQueue_of_fail _ s w peer eventId hf]
    exact PeerService.enqueue_lookup_self _ s _ peer eventId
  · have h0 := sendIncrement_of_response http peer s.SelfId eventId resp hu hd
    refine ⟨h0, ?_⟩
    have hok : (env http now).SendIncrement w.sent
        { peer := peer, selfId := s.SelfId, eventId := eventId } = true := by
      show (SendIncrement http peer s.SelfId eventId).isNone = true
      rw [h0]
      rfl
    rw [PeerService.sendOrQueue_of_ok _ s w peer eventId hok]

theorem sendIncrement_error_iff_no_response_witness :
    (failingPeerHttp.newRequestOk ("http://" ++ "n2" ++ "/counter/replicate") = true ∧
      failingPeerHttp.Do { method := "POST", url := "http://" ++ "n2" ++ "/counter/replicate",
                           nodeId := demoService.SelfId, eventId := "e1" } =
        some { StatusCode := 500 }) ∧
    (PeerService.sendOrQueue (env failingPeerHttp failingEnv.Now) demoService World.start
      "n2" "e1").1 = demoService :=
  ⟨⟨by decide, by decide⟩,
    ((sendIncrement_error_iff_no_response failingPeerHttp failingEnv.Now demoService
      World.start "n2" "e1").2.2 { StatusCode := 500 } (by decide) (by decide)).2⟩

end Client

/-! ## Handlers -/

namespace PeerHandler

/-- C21 (the code departs from the claim). On a body that fails to decode, `Join` and
`Heartbeat` answer 400 and still call `AddPeer(body.NodeID)` (`Join` also
`GetPeersList()`), and `Replicate` answers 200 and calls `Increment(body.EventID)`.
With the zero-valued body an undecodable request leaves, the empty id becomes a peer
of the registry and the counter grows by 1 for the event id `""`. -/
theorem handlers_call_service_after_decode_error :
    (∀ (env : Env) (s : PeerService) (w : World) (body : NodeRequestBody),
      (Join env s w { body := body, failed := true }).status = StatusBadRequest ∧
      (Join env s w { body := body, failed := true }).calls =
        [.AddPeer body.NodeID, .GetPeersList]) ∧
    (∀ (env : Env) (s : PeerService) (w : World) (body : NodeRequestBody),
      (Heartbeat env s w { body := body, failed := true }).status = StatusBadRequest ∧
      (Heartbeat env s w { body := body, failed := true }).calls =
        [.AddPeer body.NodeID]) ∧
    (∀ (s : PeerService) (w : World) (body : ReplicateBody),
      (Replicate s w { body := body, failed := true }).status = StatusOK ∧
      (Replicate s w { body := body, failed := true }).calls =
        [.Increment body.EventID]) ∧
    "" ∉ demoService.GetPeersList ∧
    "" ∈ (Join failingEnv demoService World.start undecodedNode).service.GetPeersList ∧
    "" ∈ (Heartbeat failingEnv demoService World.start undecodedNode).service.GetPeersList ∧
    demoService.GetCounterValue = 0 ∧
    (Replicate demoService World.start undecodedReplicate).service.GetCounterValue = 1 ∧
    (Replicate demoService World.start undecodedReplicate).started =
      [{ peer := "n3", eventID := "" }, { peer := "n2", eventID := "" }] := by
  refine ⟨fun _ _ _ _ => ⟨rfl, rfl⟩, fun _ _ _ _ => ⟨rfl, rfl⟩, fun _ _ _ => ⟨rfl, rfl⟩,
    ?_, ?_, ?_, ?_, ?_, ?_⟩ <;> decide

end PeerHandler

end ServiceDiscovery
